import Mathlib

/-!
# Verification of the retrowin32 guest-kernel and GDI substrate

Shallow embedding, in Lean 4, of the parts of the retrowin32 emulator core
that the specification's claims are about:

* the kernel mapping table (`Mappings.new`, `Mappings.add`, `Mappings.alloc`
  from `win32/src/winapi/kernel32/memory.rs`),
* the bitmap blit engine (`fill_pixels`, `bit_blt` from
  `win32/src/winapi/gdi32/bitmap.rs`),
* the draw primitives (`LineTo`, `GetPixel` from
  `win32/src/winapi/gdi32/draw.rs`),
* the heap API surface (`HeapReAlloc` from `memory.rs`; the heap's internal
  sub-allocator is not part of the sources, so it is modelled from the spec),
* the PE loader tail (`load_exe` from `win32/src/windows.rs`).

Machine integers (`u32` in the source) are modelled as `Nat` with explicit
wrap-around (`% 2^32`) at the operations where the source performs 32-bit
arithmetic; `usize` quantities (buffer lengths) are plain `Nat`.  A Rust
`panic!`/`todo!`/failed `assert!` is modelled by returning `none`.
-/

namespace Retrowin32

/-- 2^32, the modulus of `u32` arithmetic. -/
def U32MOD : Nat := 4294967296

/-- Wrapping `u32` addition result: reduce a `Nat` modulo 2^32. -/
def wrap32 (n : Nat) : Nat := n % U32MOD

/-- Wrapping `u32` subtraction `a - b` (both operands already < 2^32). -/
def sub32 (a b : Nat) : Nat := (a + U32MOD - b) % U32MOD

theorem wrap32_lt (n : Nat) : wrap32 n < U32MOD := Nat.mod_lt _ (by decide)

theorem wrap32_eq_of_lt {n : Nat} (h : n < U32MOD) : wrap32 n = n := Nat.mod_eq_of_lt h

theorem sub32_eq_sub {a b : Nat} (hb : b ≤ a) (ha : a < U32MOD) : sub32 a b = a - b := by
  unfold sub32
  have h1 : a + U32MOD - b = (a - b) + U32MOD := by omega
  rw [h1, Nat.add_mod_right]
  exact Nat.mod_eq_of_lt (by omega)

/-! ## Pixels and colors (gdi32) -/

/-- One RGBA32 pixel: the `[u8; 4]` of the source.  Bytes are `Nat`s kept
below 256 by all operations. -/
structure Px where
  r : Nat
  g : Nat
  b : Nat
  a : Nat
deriving Repr, DecidableEq

/-- Bitwise complement of a byte (`!x` on `u8`). -/
def notByte (x : Nat) : Nat := 255 - x % 256

/-- Bitwise and of two bytes (`x & y` on `u8`). -/
def andByte (x y : Nat) : Nat := x &&& y

/-- COLORREF: a `u32` containing little-endian `R,G,B,0`
(`gdi32/draw.rs`). -/
structure COLORREF where
  val : Nat
deriving Repr, DecidableEq

/-- `COLORREF::from_rgb(r, g, b)`: little-endian `[r, g, b, 0]` as a `u32`. -/
def COLORREF.from_rgb (r g b : Nat) : COLORREF :=
  ⟨r % 256 + (g % 256) * 256 + (b % 256) * 65536⟩

/-- `COLORREF::to_pixel`: the `[r, g, b, 0xff]` pixel of a COLORREF. -/
def COLORREF.to_pixel (c : COLORREF) : Px :=
  ⟨c.val % 256, c.val / 256 % 256, c.val / 65536 % 256, 0xff⟩

/-- `COLORREF::white()`. -/
def COLORREF.white : COLORREF := COLORREF.from_rgb 0xff 0xff 0xff

/-- `CLR_INVALID = COLORREF(0xffff_ffff)`. -/
def CLR_INVALID : COLORREF := ⟨0xffffffff⟩

/-! ## IsBadReadPtr / IsBadWritePtr (kernel32/memory.rs)

Both functions ignore the machine entirely (the parameter is `_machine` in
the source) and return `false`; the machine state is polymorphic here, which
makes "mutates no emulator state" a statement about arbitrary states. -/

/-- `IsBadReadPtr(machine, lp, ucb)`: returns `false` ("all pointers are
valid") and leaves the machine untouched. -/
def IsBadReadPtr {M : Type} (machine : M) (lp ucb : Nat) : M × Bool :=
  (machine, false)

/-- `IsBadWritePtr(machine, lp, ucb)`: returns `false` ("all pointers are
valid") and leaves the machine untouched. -/
def IsBadWritePtr {M : Type} (machine : M) (lp ucb : Nat) : M × Bool :=
  (machine, false)

/-! ## Device contexts and GetPixel (gdi32/draw.rs) -/

/-- `DCTarget`: what a device context draws into. -/
inductive DCTarget where
  | Memory (hbitmap : Nat)
  | Window (hwnd : Nat)
  | DirectDrawSurface (ptr : Nat)
deriving Repr, DecidableEq

/-- Binary raster op `R2` (only the two variants of the source). -/
inductive R2 where
  | COPYPEN
  | WHITE
deriving Repr, DecidableEq

/-- A window's backing store: width, height and RGBA32 pixel buffer
(the `user32` window collaborator; only the fields `GetPixel`, `SetPixel`
and `LineTo` read are modelled). -/
structure Window where
  width : Nat
  height : Nat
  pixels : List Px
deriving Repr, DecidableEq

/-- The slice of device-context state the draw primitives use:
current position, selected pen handle, current ROP2 and target. -/
structure DC where
  x : Nat
  y : Nat
  pen : Nat
  r2 : R2
  target : DCTarget
deriving Repr, DecidableEq

/-- `Pen { color }`. -/
structure Pen where
  color : COLORREF
deriving Repr, DecidableEq

/-- The machine state slice used by `GetPixel` and `LineTo`: one DC, the
window registry and the GDI pen objects, both as association lists keyed by
handle. -/
structure DrawMachine where
  dc : DC
  windows : List (Nat × Window)
  pens : List (Nat × Pen)
deriving Repr, DecidableEq

/-- Association-list lookup (registry `get`). -/
def lookupH {V : Type} (l : List (Nat × V)) (h : Nat) : Option V :=
  (l.find? (fun p => p.1 == h)).map (·.2)

/-- `GetPixel(machine, hdc, x, y)` (`gdi32/draw.rs`): on a `Window` target,
read the window pixel at `y*stride + x` and build a COLORREF from its RGB
bytes; on every other target (including `Memory`) return
`COLORREF::from_rgb(0, 0, 0)` (a "TODO: actually read" placeholder).
`none` models the panics of the source (missing window handle /
out-of-bounds pixel index). -/
def GetPixel (machine : DrawMachine) (x y : Nat) : Option COLORREF :=
  match machine.dc.target with
  | DCTarget.Window hwnd =>
      match lookupH machine.windows hwnd with
      | none => none
      | some window =>
          let stride := window.width
          match window.pixels.get? (y * stride + x) with
          | none => none
          | some color => some (COLORREF.from_rgb color.r color.g color.b)
  | _ => some (COLORREF.from_rgb 0 0 0)

/-! ## The kernel mapping table (kernel32/memory.rs)

Addresses and sizes are `u32` in the source.  They are modelled as `Nat`;
wherever the source performs `u32` addition that could wrap we reduce with
`wrap32` (release-build wrapping semantics), and the `u32` subtractions the
source performs are only reached with the subtrahend ≤ the minuend on the
states the theorems quantify over, where `Nat` subtraction agrees. -/

/-- `round_up_to_page_granularity(size)`: `size + 0xfff & !0xfff` on `u32`,
i.e. clear the low 12 bits of the wrapped sum. -/
def round_up_to_page_granularity (size : Nat) : Nat :=
  wrap32 (size + 0xfff) - wrap32 (size + 0xfff) % 0x1000

/-- `Mapping { addr, size, desc, flags }`; `flags` is the
`ImageSectionFlags` bit set, modelled as its `u32` representation. -/
structure Mapping where
  addr : Nat
  size : Nat
  desc : String
  flags : Nat
deriving Repr, DecidableEq

/-- The sentinel mapping installed by `Mappings::new`. -/
def sentinelMapping : Mapping :=
  { addr := 0, size := 0x1000, desc := "avoid null pointers", flags := 0 }

/-- `Mappings::new()`: a table holding only the null-pointer guard. -/
def Mappings.new : List Mapping := [sentinelMapping]

/-- First phase of `Mappings::add`: when an element precedes the insertion
point and overlaps (`prev.addr + prev.size >= mapping.addr` in `u32`),
either truncate it to `mapping.addr - prev.addr` or panic
(`"mapping conflict"`, modelled as `none`). -/
def addStep1 (t : List Mapping) (maddr pos : Nat) (truncate_previous : Bool) :
    Option (List Mapping) :=
  match t[pos - 1]? with
  | some prev =>
      if 0 < pos then
        if maddr ≤ wrap32 (prev.addr + prev.size) then
          if truncate_previous then
            some (t.set (pos - 1) { prev with size := maddr - prev.addr })
          else none
        else some t
      else some t
  | none => some t

/-- Second phase of `Mappings::add`: the
`assert!(mapping.addr + mapping.size <= next.addr)` (failure modelled as
`none`), then the insertion at `pos`. -/
def addStep2 (t1 : List Mapping) (m : Mapping) (pos : Nat) :
    Option (List Mapping) :=
  match t1[pos]? with
  | some next =>
      if wrap32 (m.addr + m.size) ≤ next.addr then some (t1.insertIdx pos m)
      else none
  | none => some (t1.insertIdx pos m)

/-- `Mappings::add(mapping, truncate_previous)`.  Rounds the size up to page
granularity, locates the first mapping whose `addr` exceeds the new one's,
resolves the overlap with the previous mapping (`addStep1`), asserts
non-overlap with the next and inserts (`addStep2`).  Returns the new table
and the inserted mapping (the source returns `&self.0[pos]`); `none` models
the source's panics. -/
def Mappings.add (t : List Mapping) (m0 : Mapping) (truncate_previous : Bool) :
    Option (List Mapping × Mapping) :=
  let m : Mapping := { m0 with size := round_up_to_page_granularity m0.size }
  let pos := t.findIdx fun e => decide (m.addr < e.addr)
  (addStep1 t m.addr pos truncate_previous).bind fun t1 =>
    (addStep2 t1 m pos).map fun t2 => (t2, m)

/-- The scan of `Mappings::alloc`: walk the table keeping `prev_end`,
returning the index of the first mapping preceded by a gap whose `space`
strictly exceeds `size`, together with the `prev_end` at that point (the
index is the table length when no such gap exists). -/
def allocScan (size : Nat) : List Mapping → Nat → Nat → Nat × Nat
  | [], prevEnd, i => (i, prevEnd)
  | e :: rest, prevEnd, i =>
      if size < sub32 e.addr prevEnd then (i, prevEnd)
      else allocScan size rest (wrap32 (e.addr + e.size)) (i + 1)

/-- `Mappings::alloc(size, desc, mem)`.  `memLen` is `mem.len()`; the result
is the new table, the new memory length and the inserted mapping, or `none`
where the source panics (page-rounded size above the 20 MiB sanity cap). -/
def Mappings.alloc (t : List Mapping) (size0 : Nat) (desc : String) (memLen : Nat) :
    Option (List Mapping × Nat × Mapping) :=
  let size := round_up_to_page_granularity size0
  if 20971520 < size then none
  else
    let scan := allocScan size t 0 0
    let pos := scan.1
    let prevEnd := scan.2
    let m : Mapping := { addr := prevEnd, size := size, desc := desc, flags := 0 }
    if pos < t.length then some (t.insertIdx pos m, memLen, m)
    else
      let space := if prevEnd < memLen then memLen - prevEnd else 0
      let memLen' := if space < size then wrap32 (prevEnd + size) else memLen
      some (t.insertIdx pos m, memLen', m)

example : round_up_to_page_granularity 0x4000 = 0x4000 := by decide
example : round_up_to_page_granularity 0x1001 = 0x2000 := by decide
example : round_up_to_page_granularity 0 = 0 := by decide

-- E6: `alloc(0x4000)` from a fresh table lands at 0x1000 (first gap that
-- strictly exceeds 0x4000); a following `alloc(0x1000)` is contiguous.
example :
    Mappings.alloc Mappings.new 0x4000 "a" 0x1000 =
      some ([sentinelMapping, ⟨0x1000, 0x4000, "a", 0⟩], 0x5000,
        ⟨0x1000, 0x4000, "a", 0⟩) := by decide
example :
    Mappings.alloc [sentinelMapping, ⟨0x1000, 0x4000, "a", 0⟩] 0x1000 "b" 0x5000 =
      some ([sentinelMapping, ⟨0x1000, 0x4000, "a", 0⟩, ⟨0x5000, 0x1000, "b", 0⟩],
        0x6000, ⟨0x5000, 0x1000, "b", 0⟩) := by decide

/-! ## Mapping-table invariants (claim C1) -/

/-- Two memory spans do not overlap. -/
def MappingsDisjoint (a b : Mapping) : Prop :=
  a.addr + a.size ≤ b.addr ∨ b.addr + b.size ≤ a.addr

instance : DecidablePred fun p : Mapping × Mapping => MappingsDisjoint p.1 p.2 :=
  fun _ => by unfold MappingsDisjoint; infer_instance

/-- The invariant stated by the specification: strictly sorted ascending by
`addr`, pairwise non-overlapping, all sizes page multiples, and the sentinel
`{addr: 0, size: 0x1000, desc: "avoid null pointers"}` first. -/
def ClaimInv (t : List Mapping) : Prop :=
  t.head? = some sentinelMapping ∧
  List.Pairwise (fun a b => a.addr < b.addr) t ∧
  List.Pairwise MappingsDisjoint t ∧
  ∀ m ∈ t, m.size % 0x1000 = 0

instance (t : List Mapping) : Decidable (ClaimInv t) := by
  unfold ClaimInv MappingsDisjoint
  exact instDecidableAnd

/-- The strengthened inductive invariant: adjacent separation, positive
page-multiple sizes, page-aligned addresses, and all spans inside the `u32`
range. -/
structure InvFull (t : List Mapping) : Prop where
  nonempty : t ≠ []
  head : t.head? = some sentinelMapping
  adj : ∀ i, (h : i + 1 < t.length) →
    (t[i]).addr + (t[i]).size ≤ t[i + 1].addr
  szpos : ∀ m ∈ t, 0 < m.size
  szdvd : ∀ m ∈ t, m.size % 0x1000 = 0
  addrdvd : ∀ m ∈ t, m.addr % 0x1000 = 0
  bdd : ∀ m ∈ t, m.addr + m.size < U32MOD

theorem InvFull.new : InvFull Mappings.new := by
  refine ⟨by decide, by decide, ?_, ?_, ?_, ?_, ?_⟩ <;>
    simp [Mappings.new, sentinelMapping, U32MOD]

theorem InvFull.chainLe {t : List Mapping} (hI : InvFull t) :
    ∀ {i j : Nat} (hj : j < t.length) (hij : i < j),
      (t[i]).addr + (t[i]).size ≤ t[j].addr := by
  intro i j
  induction j with
  | zero => omega
  | succ j ih =>
      intro hj hij
      rcases Nat.lt_succ_iff_lt_or_eq.mp hij with h | h
      · have hj' : j < t.length := by omega
        have h1 := ih hj' h
        have h2 := hI.adj j hj
        omega
      · subst h
        exact hI.adj i hj

theorem InvFull.sorted {t : List Mapping} (hI : InvFull t) :
    ∀ {i j : Nat} (hj : j < t.length) (hij : i < j),
      (t[i]).addr < t[j].addr := by
  intro i j hj hij
  have h1 := hI.chainLe hj hij
  have h2 := hI.szpos (t[i]) (List.getElem_mem (by omega))
  omega

theorem InvFull.claimInv {t : List Mapping} (hI : InvFull t) : ClaimInv t := by
  refine ⟨hI.head, ?_, ?_, hI.szdvd⟩
  · exact List.pairwise_iff_getElem.mpr fun i j hi hj hij => hI.sorted hj hij
  · exact List.pairwise_iff_getElem.mpr fun i j hi hj hij =>
      Or.inl (hI.chainLe hj hij)

/-! Facts about `round_up_to_page_granularity` on sane input sizes. -/

theorem roundUp_spec {size : Nat} (h : size ≤ 0xFFFFF000) :
    size ≤ round_up_to_page_granularity size ∧
    round_up_to_page_granularity size ≤ size + 0xfff ∧
    round_up_to_page_granularity size % 0x1000 = 0 := by
  have hx : wrap32 (size + 0xfff) = size + 0xfff :=
    wrap32_eq_of_lt (by unfold U32MOD; omega)
  unfold round_up_to_page_granularity
  rw [hx]
  have hmod := Nat.mod_add_div (size + 0xfff) 0x1000
  have hlt : (size + 0xfff) % 0x1000 < 0x1000 := Nat.mod_lt _ (by omega)
  refine ⟨by omega, by omega, ?_⟩
  have hsub : size + 0xfff - (size + 0xfff) % 0x1000 = 0x1000 * ((size + 0xfff) / 0x1000) := by
    omega
  rw [hsub]
  exact Nat.mul_mod_right _ _

theorem roundUp_lt (size : Nat) : round_up_to_page_granularity size < U32MOD := by
  unfold round_up_to_page_granularity
  have := wrap32_lt (size + 0xfff)
  omega

/-- Inserting a mapping into a gap of a well-formed table — no overlap with
the mapping before `pos` nor the one at `pos` — preserves the full
invariant, provided the insertion point is after the sentinel. -/
theorem insertIdx_invFull {t1 : List Mapping} {m : Mapping} {pos : Nat}
    (hI : InvFull t1) (hpos1 : 1 ≤ pos) (hposle : pos ≤ t1.length)
    (hleft : (t1[pos - 1]).addr + (t1[pos - 1]).size ≤ m.addr)
    (hright : ∀ h : pos < t1.length, m.addr + m.size ≤ (t1[pos]).addr)
    (hms : 0 < m.size) (hmd : m.size % 0x1000 = 0)
    (hma : m.addr % 0x1000 = 0) (hmb : m.addr + m.size < U32MOD) :
    InvFull (t1.insertIdx pos m) := by
  have hlen' : (t1.insertIdx pos m).length = t1.length + 1 :=
    List.length_insertIdx pos t1 hposle
  have hE1 : ∀ k (hk : k < pos) (hk2 : k < t1.length),
      (t1.insertIdx pos m)[k] = t1[k] := fun k hk hk2 =>
    List.getElem_insertIdx_of_lt t1 m pos k hk hk2
  have hE2 : (t1.insertIdx pos m)[pos] = m :=
    List.getElem_insertIdx_self t1 m pos hposle
  have hE3 : ∀ k (hk : pos + k < t1.length),
      (t1.insertIdx pos m)[pos + k + 1] = t1[pos + k] := fun k hk =>
    List.getElem_insertIdx_add_succ t1 m pos k hk
  have hmem : ∀ x ∈ t1.insertIdx pos m, x = m ∨ x ∈ t1 := fun x hx =>
    (List.mem_insertIdx hposle).mp hx
  refine ⟨?_, ?_, ?_, ?_, ?_, ?_, ?_⟩
  · exact List.ne_nil_of_length_pos (by omega)
  · rw [List.head?_eq_getElem?]
    have h0 : (t1.insertIdx pos m)[0] = t1[0] :=
      hE1 0 (by omega) (by omega)
    rw [List.getElem?_eq_getElem (by omega), h0]
    have := hI.head
    rw [List.head?_eq_getElem?, List.getElem?_eq_getElem (by omega)] at this
    exact this
  · intro i hilen
    rcases Nat.lt_trichotomy (i + 1) pos with hlt | heq | hgt
    · rw [hE1 i (by omega) (by omega), hE1 (i + 1) (by omega) (by omega)]
      exact hI.adj i (by omega)
    · have hi : i = pos - 1 := by omega
      subst hi
      rw [hE1 (pos - 1) (by omega) (by omega)]
      simp only [show pos - 1 + 1 = pos from by omega, hE2]
      exact hleft
    · rcases Nat.lt_or_ge i (pos + 1) with hip | hip
      · have hi : i = pos := by omega
        subst hi
        rw [hE2, hE3 0 (by omega)]
        exact hright (by omega)
      · obtain ⟨k, rfl⟩ : ∃ k, i = pos + k + 1 := ⟨i - pos - 1, by omega⟩
        have h2 : (List.insertIdx pos m t1)[pos + k + 1 + 1] =
            t1[pos + k + 1] := hE3 (k + 1) (by omega)
        rw [hE3 k (by omega), h2]
        exact hI.adj (pos + k) (by omega)
  · intro x hx
    rcases hmem x hx with rfl | hx1
    · exact hms
    · exact hI.szpos x hx1
  · intro x hx
    rcases hmem x hx with rfl | hx1
    · exact hmd
    · exact hI.szdvd x hx1
  · intro x hx
    rcases hmem x hx with rfl | hx1
    · exact hma
    · exact hI.addrdvd x hx1
  · intro x hx
    rcases hmem x hx with rfl | hx1
    · exact hmb
    · exact hI.bdd x hx1

/-- Behaviour of `addStep1` on a well-formed table, at an insertion point
whose predecessor sits strictly below the page-aligned address `maddr`:
the phase keeps the table well-formed, preserves its length and the element
at `pos`, and leaves the (possibly truncated) predecessor ending at or
before `maddr`. -/
theorem addStep1_spec {t : List Mapping} {maddr pos : Nat} {tp : Bool}
    {t1 : List Mapping} (hI : InvFull t) (hpos1 : 1 ≤ pos) (hposle : pos ≤ t.length)
    (hprevle : (t[pos - 1]).addr ≤ maddr)
    (hprevne : (t[pos - 1]).addr ≠ maddr)
    (hma : maddr % 0x1000 = 0) (hmlt : maddr < U32MOD)
    (hat : ∀ h2 : pos < t.length, maddr < (t[pos]).addr)
    (h : addStep1 t maddr pos tp = some t1) :
    InvFull t1 ∧ t1.length = t.length ∧
      (∃ prev1, t1[pos - 1]? = some prev1 ∧ prev1.addr + prev1.size ≤ maddr) ∧
      t1[pos]? = t[pos]? := by
  have hplt : pos - 1 < t.length := by omega
  have hget : t[pos - 1]? = some (t[pos - 1]) := List.getElem?_eq_getElem hplt
  set prev := t[pos - 1] with hprevdef
  have hprevmem : prev ∈ t := List.getElem_mem hplt
  have hprevlt : prev.addr < maddr := lt_of_le_of_ne hprevle hprevne
  have hwrap : wrap32 (prev.addr + prev.size) = prev.addr + prev.size :=
    wrap32_eq_of_lt (hI.bdd prev hprevmem)
  unfold addStep1 at h
  rw [hget] at h
  simp only at h
  rw [hwrap] at h
  split_ifs at h with h1 hoverlap h3
  rotate_right
  · omega
  rotate_right
  · obtain rfl : t = t1 := Option.some.inj h
    exact ⟨hI, rfl, ⟨prev, hget, by omega⟩, rfl⟩
  · obtain rfl : t.set (pos - 1) { prev with size := maddr - prev.addr } = t1 :=
      Option.some.inj h
    set prev1 : Mapping := { prev with size := maddr - prev.addr } with hprev1
    have hlen : (t.set (pos - 1) prev1).length = t.length := List.length_set ..
    have hgetp : (t.set (pos - 1) prev1)[pos - 1]? = some prev1 :=
      List.getElem?_set_self (by omega)
    have hgetpos : (t.set (pos - 1) prev1)[pos]? = t[pos]? :=
      List.getElem?_set_ne (by omega)
    have hmemset : ∀ x ∈ t.set (pos - 1) prev1, x ∈ t ∨ x = prev1 := fun x hx =>
      List.mem_or_eq_of_mem_set hx
    refine ⟨⟨?_, ?_, ?_, ?_, ?_, ?_, ?_⟩, hlen, ⟨prev1, hgetp, by
      simp only [hprev1]
      omega⟩, hgetpos⟩
    · exact List.ne_nil_of_length_pos (by omega)
    · rw [List.head?_eq_getElem?]
      have hh := hI.head
      rw [List.head?_eq_getElem?, List.getElem?_eq_getElem (by omega)] at hh
      have hh' : t[0] = sentinelMapping := Option.some.inj hh
      by_cases h0 : pos - 1 = 0
      · rw [h0]
        rw [h0] at hgetp
        rw [hgetp]
        have hsent : prev = sentinelMapping := by
          rw [hprevdef]
          simp only [h0]
          exact hh'
        have haddr0 : prev.addr = 0 := by rw [hsent]; rfl
        have hsz : prev.size = 0x1000 := by rw [hsent]; rfl
        have hm1000 : maddr = 0x1000 := by
          rw [haddr0, hsz] at hoverlap
          omega
        rw [hprev1, hsent, hm1000]
        rfl
      · rw [List.getElem?_set_ne (by omega), List.getElem?_eq_getElem (by omega)]
        exact congrArg some hh'
    · intro i hilen
      rw [hlen] at hilen
      have hgetany : ∀ j (hj : j < t.length),
          (t.set (pos - 1) prev1)[j] =
            if pos - 1 = j then prev1 else t[j] := fun j hj =>
        List.getElem_set (by omega)
      rw [hgetany i (by omega), hgetany (i + 1) (by omega)]
      by_cases hi : pos - 1 = i
      · rw [if_pos hi, if_neg (by omega)]
        have h2 : maddr ≤ t[i + 1].addr := by
          have h3 := hat (by omega)
          have hieq : pos = i + 1 := by omega
          simp only [hieq] at h3
          omega
        simp only [hprev1]
        show prev.addr + (maddr - prev.addr) ≤ t[i + 1].addr
        omega
      · rw [if_neg hi]
        by_cases hi1 : pos - 1 = i + 1
        · rw [if_pos hi1]
          have h4 := hI.adj i hilen
          simp only [hprev1]
          show t[i].addr + t[i].size ≤ prev.addr
          rw [hprevdef]
          simp only [hi1]
          exact h4
        · rw [if_neg hi1]
          exact hI.adj i hilen
    · intro x hx
      rcases hmemset x hx with hx1 | rfl
      · exact hI.szpos x hx1
      · simp only [hprev1]
        show 0 < maddr - prev.addr
        omega
    · intro x hx
      rcases hmemset x hx with hx1 | rfl
      · exact hI.szdvd x hx1
      · have h5 := hI.addrdvd prev hprevmem
        simp only [hprev1]
        show (maddr - prev.addr) % 0x1000 = 0
        omega
    · intro x hx
      rcases hmemset x hx with hx1 | rfl
      · exact hI.addrdvd x hx1
      · exact hI.addrdvd prev hprevmem
    · intro x hx
      rcases hmemset x hx with hx1 | rfl
      · exact hI.bdd x hx1
      · simp only [hprev1]
        show prev.addr + (maddr - prev.addr) < U32MOD
        omega

/-- `Mappings::add` preserves the full invariant when the added mapping has
a fresh, nonzero, page-aligned address, a positive size no larger than
`0xFFFFF000` (so that page rounding cannot wrap), and its page-rounded span
stays below 2^32. -/
theorem add_preserves {t : List Mapping} {m0 : Mapping} {tp : Bool}
    {t' : List Mapping} {mret : Mapping} (hI : InvFull t)
    (hal : m0.addr % 0x1000 = 0) (haddr : 0 < m0.addr)
    (hfresh : ∀ e ∈ t, e.addr ≠ m0.addr)
    (hsz : 0 < m0.size) (hszle : m0.size ≤ 0xFFFFF000)
    (hbd : m0.addr + round_up_to_page_granularity m0.size < U32MOD)
    (h : Mappings.add t m0 tp = some (t', mret)) : InvFull t' := by
  obtain ⟨hS1, hS2, hS3⟩ := roundUp_spec hszle
  unfold Mappings.add at h
  simp only at h
  rw [Option.bind_eq_some] at h
  obtain ⟨t1, h1, h2⟩ := h
  rw [Option.map_eq_some'] at h2
  obtain ⟨t2, h3, heq⟩ := h2
  obtain ⟨h4, h5⟩ := Prod.mk.inj heq
  subst h4
  set S := round_up_to_page_granularity m0.size with hS
  set m : Mapping := { m0 with size := S } with hm
  set pos := t.findIdx fun e => decide (m0.addr < e.addr) with hposdef
  have hlen0 : 0 < t.length := List.length_pos.mpr hI.nonempty
  have ht0 : t[0] = sentinelMapping := by
    have hh := hI.head
    rw [List.head?_eq_getElem?, List.getElem?_eq_getElem hlen0] at hh
    exact Option.some.inj hh
  have hposle : pos ≤ t.length := List.findIdx_le_length _
  have hat : ∀ h2 : pos < t.length, m0.addr < (t[pos]).addr := by
    intro h2
    have := @List.findIdx_getElem _ (fun e => decide (m0.addr < e.addr)) t h2
    exact of_decide_eq_true this
  have hpos1 : 1 ≤ pos := by
    by_contra hpos0
    have hp0 : pos = 0 := by omega
    have hlt0 := hat (by omega)
    simp only [hp0] at hlt0
    rw [ht0] at hlt0
    simp [sentinelMapping] at hlt0
  have hbefore : (getElem t (pos - 1) (by omega)).addr ≤ m0.addr := by
    have hfalse := @List.not_of_lt_findIdx _ (fun e => decide (m0.addr < e.addr))
      t (pos - 1) (by omega)
    have := of_decide_eq_false hfalse
    omega
  have hprevne : (getElem t (pos - 1) (by omega)).addr ≠ m0.addr :=
    hfresh _ (List.getElem_mem (by omega))
  have hmlt : m0.addr < U32MOD := by omega
  obtain ⟨hI1, hlen1, ⟨prev1, hget1, hple⟩, hgetpos⟩ :=
    addStep1_spec hI hpos1 hposle hbefore hprevne hal hmlt hat h1
  have hwrapm : wrap32 (m.addr + m.size) = m0.addr + S := by
    show wrap32 (m0.addr + S) = m0.addr + S
    exact wrap32_eq_of_lt hbd
  unfold addStep2 at h3
  rw [hgetpos] at h3
  have hposle1 : pos ≤ t1.length := by omega
  have hleft : (getElem t1 (pos - 1) (by omega)).addr + (getElem t1 (pos - 1) (by omega)).size ≤ m.addr := by
    have hb : pos - 1 < t1.length := by omega
    rw [List.getElem?_eq_getElem hb] at hget1
    have := Option.some.inj hget1
    rw [this]
    exact hple
  rcases Nat.lt_or_ge pos t.length with hplt | hpge
  · rw [List.getElem?_eq_getElem hplt] at h3
    simp only [hwrapm] at h3
    split_ifs at h3 with hcond
    obtain rfl : t1.insertIdx pos m = t2 := Option.some.inj h3
    refine insertIdx_invFull hI1 hpos1 hposle1 hleft ?_ (by
      show 0 < S
      omega) hS3 hal (by
      show m0.addr + S < U32MOD
      exact hbd)
    intro hlt
    have ht1pos : getElem t1 pos hlt = getElem t pos hplt := by
      have := hgetpos
      rw [List.getElem?_eq_getElem hplt, List.getElem?_eq_getElem hlt] at this
      exact Option.some.inj this
    rw [ht1pos]
    exact hcond
  · have hnone : t[pos]? = none := List.getElem?_eq_none (by omega)
    rw [hnone] at h3
    simp only at h3
    obtain rfl : t1.insertIdx pos m = t2 := Option.some.inj h3
    refine insertIdx_invFull hI1 hpos1 hposle1 hleft ?_ (by
      show 0 < S
      omega) hS3 hal (by
      show m0.addr + S < U32MOD
      exact hbd)
    intro hlt
    omega

/-- The `prev_end` value of the `Mappings::alloc` scan after it has passed
the first `i` mappings: `0` before any mapping, otherwise the end of the
`(i-1)`-th one. -/
def prevEndAt (t : List Mapping) : Nat → Nat
  | 0 => 0
  | i + 1 => ((t[i]?).map fun m => m.addr + m.size).getD 0

/-- The end of the highest mapping of the table (`0` for an empty table). -/
def tableEnd (t : List Mapping) : Nat := prevEndAt t t.length

theorem prevEndAt_le_addr {t : List Mapping} (hI : InvFull t) {i : Nat}
    (hi : i < t.length) : prevEndAt t i ≤ (t[i]).addr := by
  cases i with
  | zero => exact Nat.zero_le _
  | succ j =>
      show ((t[j]?).map fun m => m.addr + m.size).getD 0 ≤ _
      rw [List.getElem?_eq_getElem (by omega)]
      exact hI.adj j hi

theorem prevEndAt_succ {t : List Mapping} {i : Nat} (hi : i < t.length) :
    prevEndAt t (i + 1) = (t[i]).addr + (t[i]).size := by
  show ((t[i]?).map fun m => m.addr + m.size).getD 0 = _
  rw [List.getElem?_eq_getElem hi]
  rfl

/-- Characterisation of the `Mappings::alloc` scan on a well-formed table:
starting at position `i` with the accumulated `prev_end`, it returns the
first position at or after `i` whose preceding gap strictly exceeds `size`
(or the table length), together with the `prev_end` there; no earlier
scanned position has such a gap. -/
theorem allocScan_spec {size : Nat} {t : List Mapping} (hI : InvFull t) :
    ∀ (l : List Mapping) (i : Nat), l = t.drop i → i ≤ t.length →
      i ≤ (allocScan size l (prevEndAt t i) i).1 ∧
      (allocScan size l (prevEndAt t i) i).1 ≤ t.length ∧
      (allocScan size l (prevEndAt t i) i).2 =
        prevEndAt t (allocScan size l (prevEndAt t i) i).1 ∧
      (∀ h : (allocScan size l (prevEndAt t i) i).1 < t.length,
        size < (t[(allocScan size l (prevEndAt t i) i).1]).addr -
          prevEndAt t (allocScan size l (prevEndAt t i) i).1) ∧
      (∀ j, i ≤ j → (hj : j < (allocScan size l (prevEndAt t i) i).1) →
        (hjl : j < t.length) →
        ¬ size < (t[j]).addr - prevEndAt t j) := by
  intro l
  induction l with
  | nil =>
      intro i hdrop hile
      have hlen : i = t.length := by
        have := congrArg List.length hdrop
        simp [List.length_drop] at this
        omega
      subst hlen
      have hres : allocScan size [] (prevEndAt t t.length) t.length =
          (t.length, prevEndAt t t.length) := rfl
      rw [hres]
      exact ⟨le_refl _, le_refl _, rfl, fun h => absurd h (by omega),
        fun j h1 h2 h3 => absurd h2 (by omega)⟩
  | cons e rest ih =>
      intro i hdrop hile
      have hilt : i < t.length := by
        by_contra hge
        rw [List.drop_eq_nil_of_le (by omega)] at hdrop
        exact List.noConfusion hdrop
      have hdec := List.drop_eq_getElem_cons hilt
      rw [hdec] at hdrop
      obtain ⟨he, hrest⟩ := List.cons.inj hdrop.symm
      have hpe_le : prevEndAt t i ≤ e.addr := by
        rw [← he]; exact prevEndAt_le_addr hI hilt
      have headdr_lt : e.addr < U32MOD := by
        have := hI.bdd e (by rw [← he]; exact List.getElem_mem hilt)
        omega
      have hsub : sub32 e.addr (prevEndAt t i) = e.addr - prevEndAt t i :=
        sub32_eq_sub hpe_le headdr_lt
      show _ ∧ _ ∧ _ ∧ _ ∧ _
      rw [allocScan, hsub]
      by_cases hgap : size < e.addr - prevEndAt t i
      · rw [if_pos hgap]
        refine ⟨le_refl _, by omega, rfl, ?_, ?_⟩
        · intro h
          rw [he]
          exact hgap
        · intro j h1 h2 h3; omega
      · rw [if_neg hgap]
        have hwrap : wrap32 (e.addr + e.size) = e.addr + e.size :=
          wrap32_eq_of_lt (hI.bdd e (by rw [← he]; exact List.getElem_mem hilt))
        have hpe1 : wrap32 (e.addr + e.size) = prevEndAt t (i + 1) := by
          rw [hwrap, prevEndAt_succ hilt, he]
        rw [hpe1]
        obtain ⟨c1, c2, c3, c4, c5⟩ := ih (i + 1) hrest.symm (by omega)
        refine ⟨by omega, c2, c3, c4, ?_⟩
        intro j h1 h2 h3
        rcases Nat.lt_or_ge i j with hij | hij
        · exact c5 j (by omega) h2 h3
        · have hji : j = i := by omega
          subst hji
          rw [← he] at hgap
          exact hgap

/-- The position/`prev_end` pair the `Mappings::alloc` scan actually uses,
with its defining facts, extracted from `allocScan_spec` at the start of the
table. -/
theorem allocScan_full {size : Nat} {t : List Mapping} (hI : InvFull t) :
    (allocScan size t 0 0).1 ≤ t.length ∧
    (allocScan size t 0 0).2 = prevEndAt t (allocScan size t 0 0).1 ∧
    (∀ h : (allocScan size t 0 0).1 < t.length,
      size < (t[(allocScan size t 0 0).1]).addr -
        prevEndAt t (allocScan size t 0 0).1) ∧
    (∀ j, (hj : j < (allocScan size t 0 0).1) → (hjl : j < t.length) →
      ¬ size < (t[j]).addr - prevEndAt t j) := by
  obtain ⟨c1, c2, c3, c4, c5⟩ :=
    @allocScan_spec size t hI t 0 (List.drop_zero t).symm (Nat.zero_le _)
  exact ⟨c2, c3, c4, fun j hj hjl => c5 j (Nat.zero_le _) hj hjl⟩

/-- The scan never chooses position 0 of a well-formed table: the gap before
the sentinel is empty. -/
theorem allocScan_pos_one {size : Nat} {t : List Mapping} (hI : InvFull t) :
    1 ≤ (allocScan size t 0 0).1 := by
  obtain ⟨c2, c3, c4, c5⟩ := @allocScan_full size t hI
  have hlen0 : 0 < t.length := List.length_pos.mpr hI.nonempty
  by_contra hpos0
  have hp0 : (allocScan size t 0 0).1 = 0 := by omega
  have hgap := c4 (by omega)
  have ht0 : t[(allocScan size t 0 0).1] = sentinelMapping := by
    have hh := hI.head
    rw [List.head?_eq_getElem?, List.getElem?_eq_getElem hlen0] at hh
    simp only [hp0]
    exact Option.some.inj hh
  rw [ht0, hp0] at hgap
  simp [sentinelMapping, prevEndAt] at hgap

/-- The address the scan settles on is page aligned. -/
theorem prevEndAt_aligned {t : List Mapping} (hI : InvFull t) {i : Nat}
    (hi : i ≤ t.length) : prevEndAt t i % 0x1000 = 0 := by
  cases i with
  | zero => rfl
  | succ j =>
      rw [prevEndAt_succ (by omega)]
      have h1 := hI.addrdvd _ (List.getElem_mem (show j < t.length by omega))
      have h2 := hI.szdvd _ (List.getElem_mem (show j < t.length by omega))
      omega

/-- `Mappings::alloc` with a positive, sane size preserves the full
invariant, provided the page-rounded size still fits above the table's end
within the `u32` range. -/
theorem alloc_preserves {t : List Mapping} {size0 : Nat} {desc : String}
    {memLen : Nat} {t' : List Mapping} {memLen' : Nat} {m : Mapping}
    (hI : InvFull t) (hsz : 0 < size0) (hszle : size0 ≤ 0xFFFFF000)
    (hbd : tableEnd t + round_up_to_page_granularity size0 < U32MOD)
    (h : Mappings.alloc t size0 desc memLen = some (t', memLen', m)) :
    InvFull t' := by
  obtain ⟨hS1, hS2, hS3⟩ := roundUp_spec hszle
  set S := round_up_to_page_granularity size0 with hS
  unfold Mappings.alloc at h
  rw [← hS] at h
  obtain ⟨c2, c3, c4, c5⟩ := @allocScan_full S t hI
  have hpos1 : 1 ≤ (allocScan S t 0 0).1 := allocScan_pos_one hI
  set pos := (allocScan S t 0 0).1 with hposdef
  set prevEnd := (allocScan S t 0 0).2 with hpedef
  have hlen0 : 0 < t.length := List.length_pos.mpr hI.nonempty
  have hleft : (getElem t (pos - 1) (by omega)).addr + (getElem t (pos - 1) (by omega)).size =
      prevEndAt t pos := by
    have hp : pos - 1 + 1 = pos := by omega
    conv_rhs => rw [← hp]
    rw [prevEndAt_succ (by omega)]
  have haligned : prevEndAt t pos % 0x1000 = 0 := prevEndAt_aligned hI c2
  simp only at h
  rw [← hposdef, ← hpedef] at h
  by_cases hcap : 20971520 < S
  · rw [if_pos hcap] at h
    exact Option.noConfusion h
  rw [if_neg hcap] at h
  have hSpos : 0 < S := by omega
  have hmb_any : prevEndAt t pos + S < U32MOD := by
    rcases Nat.lt_or_ge pos t.length with hlt | hge
    · have hgap := c4 hlt
      have hle := prevEndAt_le_addr hI hlt
      have hb := hI.bdd _ (List.getElem_mem hlt)
      omega
    · have hpe : pos = t.length := by omega
      have hte : prevEndAt t pos = tableEnd t := by rw [hpe]; rfl
      omega
  have hinv : InvFull
      (List.insertIdx pos { addr := prevEnd, size := S, desc := desc, flags := 0 } t) := by
    refine insertIdx_invFull hI hpos1 c2 ?_ ?_ hSpos hS3 ?_ ?_
    · show (getElem t (pos - 1) (by omega)).addr + (getElem t (pos - 1) (by omega)).size ≤ prevEnd
      rw [c3]
      exact le_of_eq hleft
    · intro hlt
      show prevEnd + S ≤ (t[pos]).addr
      rw [c3]
      have hgap := c4 hlt
      have hle := prevEndAt_le_addr hI hlt
      omega
    · show prevEnd % 0x1000 = 0
      rw [c3]
      exact haligned
    · show prevEnd + S < U32MOD
      rw [c3]
      exact hmb_any
  by_cases hplt : pos < t.length
  · rw [if_pos hplt] at h
    have h2 := Option.some.inj h
    have ht' := congrArg Prod.fst h2
    simp only at ht'
    rw [← ht']
    exact hinv
  · rw [if_neg hplt] at h
    have h2 := Option.some.inj h
    have ht' := congrArg Prod.fst h2
    simp only at ht'
    rw [← ht']
    exact hinv

/-! ## Sequences of mapping-table insertions (claim C1) -/

/-- An insertion into the mapping table: `Mappings::add` (with or without
truncate permission) or `Mappings::alloc`. -/
inductive MapOp where
  | add (m : Mapping) (truncate_previous : Bool)
  | alloc (size : Nat) (desc : String)
deriving Repr

/-- Apply one insertion to the pair (table, memory length). -/
def stepOp (s : List Mapping × Nat) : MapOp → Option (List Mapping × Nat)
  | MapOp.add m tp => (Mappings.add s.1 m tp).map fun r => (r.1, s.2)
  | MapOp.alloc size desc =>
      (Mappings.alloc s.1 size desc s.2).map fun r => (r.1, r.2.1)

/-- Run a sequence of insertions, stopping at the first panic. -/
def runOps (s : List Mapping × Nat) (ops : List MapOp) :
    Option (List Mapping × Nat) :=
  List.foldlM stepOp s ops

/-- Sanity preconditions on one insertion: an `add` must carry a fresh,
nonzero, page-aligned address and a positive size whose page-rounded span
stays inside `u32`; an `alloc` must request a positive size whose
page-rounded value fits above the table's end inside `u32`. -/
def okOpB (t : List Mapping) : MapOp → Bool
  | MapOp.add m _ =>
      decide (m.addr % 0x1000 = 0) && decide (0 < m.addr) &&
      t.all (fun e => decide (e.addr ≠ m.addr)) &&
      decide (0 < m.size) && decide (m.size ≤ 0xFFFFF000) &&
      decide (m.addr + round_up_to_page_granularity m.size < U32MOD)
  | MapOp.alloc size _ =>
      decide (0 < size) && decide (size ≤ 0xFFFFF000) &&
      decide (tableEnd t + round_up_to_page_granularity size < U32MOD)

/-- All insertions of the sequence satisfy their precondition at the state
where they execute. -/
def okRunB : List Mapping × Nat → List MapOp → Bool
  | _, [] => true
  | s, op :: rest =>
      okOpB s.1 op &&
        match stepOp s op with
        | none => true
        | some s' => okRunB s' rest

theorem runOps_invFull {ops : List MapOp} :
    ∀ {s s' : List Mapping × Nat}, InvFull s.1 → okRunB s ops = true →
      runOps s ops = some s' → InvFull s'.1 := by
  induction ops with
  | nil =>
      intro s s' hI _ h
      obtain rfl : s = s' := Option.some.inj h
      exact hI
  | cons op rest ih =>
      intro s s' hI hok hrun
      rw [runOps, List.foldlM_cons] at hrun
      obtain ⟨s1, hstep, hrest⟩ := Option.bind_eq_some.mp hrun
      rw [okRunB, Bool.and_eq_true] at hok
      obtain ⟨hok1, hok2⟩ := hok
      rw [hstep] at hok2
      have hI1 : InvFull s1.1 := by
        cases op with
        | add m tp =>
            rw [stepOp] at hstep
            obtain ⟨r, hadd, hr⟩ := Option.map_eq_some'.mp hstep
            rw [okOpB] at hok1
            simp only [Bool.and_eq_true, decide_eq_true_eq, List.all_eq_true] at hok1
            obtain ⟨⟨⟨⟨⟨hk1, hk2⟩, hk3⟩, hk4⟩, hk5⟩, hk6⟩ := hok1
            have hfresh : ∀ e ∈ s.1, e.addr ≠ m.addr := fun e he => by
              have := hk3 e he
              simpa using this
            have hs11 : s1.1 = r.1 := by rw [← hr]
            rw [hs11]
            exact add_preserves hI hk1 hk2 hfresh hk4 hk5 hk6
              (by rw [hadd])
        | alloc size desc =>
            rw [stepOp] at hstep
            obtain ⟨r, halloc, hr⟩ := Option.map_eq_some'.mp hstep
            rw [okOpB] at hok1
            simp only [Bool.and_eq_true, decide_eq_true_eq] at hok1
            obtain ⟨⟨hk1, hk2⟩, hk3⟩ := hok1
            have hs11 : s1.1 = r.1 := by rw [← hr]
            rw [hs11]
            exact alloc_preserves hI hk1 hk2 hk3
              (by rw [halloc])
      exact ih hI1 hok2 hrest

/-- C1 (amended).  After every successful sequence of MappingTable
insertions in which each `add` passes a mapping whose address is a nonzero
page multiple distinct from every existing mapping's address and whose size
is positive with page-rounded span below 2^32, and each `alloc` requests a
positive size (≤ 0xFFFFF000) whose page-rounded value fits above the
table's end below 2^32: the mapping sequence is strictly sorted ascending
by `addr`, no two mappings overlap, every mapping's size is a multiple of
0x1000, and the sentinel mapping `{addr: 0, size: 0x1000}` described
"avoid null pointers" is the first element. -/
theorem C1_mapping_table_invariant {ops : List MapOp} {memLen : Nat}
    {t' : List Mapping} {memLen' : Nat}
    (hok : okRunB (Mappings.new, memLen) ops = true)
    (hrun : runOps (Mappings.new, memLen) ops = some (t', memLen')) :
    ClaimInv t' :=
  (runOps_invFull (s := (Mappings.new, memLen)) InvFull.new hok hrun).claimInv

/-- Witness for C1: a concrete run with an `add` without truncation, an
`alloc`, and an `add` with truncation permission. -/
theorem C1_mapping_table_invariant_witness :
    okRunB (Mappings.new, 0x1000)
        [MapOp.add ⟨0x5000, 0x1800, "sec", 0⟩ false,
         MapOp.alloc 0x4000 "heap",
         MapOp.add ⟨0x1000, 0x1000, "x", 0⟩ true] = true ∧
    ClaimInv [sentinelMapping, ⟨0x1000, 0x1000, "x", 0⟩,
      ⟨0x5000, 0x2000, "sec", 0⟩, ⟨0x7000, 0x4000, "heap", 0⟩] :=
  ⟨by decide,
    @C1_mapping_table_invariant
      [MapOp.add ⟨0x5000, 0x1800, "sec", 0⟩ false,
        MapOp.alloc 0x4000 "heap", MapOp.add ⟨0x1000, 0x1000, "x", 0⟩ true]
      0x1000
      [sentinelMapping, ⟨0x1000, 0x1000, "x", 0⟩,
        ⟨0x5000, 0x2000, "sec", 0⟩, ⟨0x7000, 0x4000, "heap", 0⟩]
      0xB000 (by decide) (by decide)⟩

/-- Counterexample to C1 as stated: a single truncating `add` at the
non-page-aligned address 0x800 succeeds, shrinks the sentinel to size 0x800
(not a page multiple, and no longer the sentinel mapping), so the invariant
of the claim fails after this insertion sequence. -/
theorem C1_counterexample :
    runOps (Mappings.new, 0x1000) [MapOp.add ⟨0x800, 0x1000, "c", 0⟩ true] =
      some ([⟨0, 0x800, "avoid null pointers", 0⟩, ⟨0x800, 0x1000, "c", 0⟩],
        0x1000) ∧
    ¬ ClaimInv [⟨0, 0x800, "avoid null pointers", 0⟩, ⟨0x800, 0x1000, "c", 0⟩] :=
  ⟨by decide, by decide⟩

/-- C4.  For every call `MappingTable::alloc(size, desc, mem)` on a
well-formed table (with a positive sane size whose page-rounded value fits
above the table's end): a page-rounded size above 20 MiB is a fatal error;
otherwise the returned mapping is inserted at a position `pos` such that its
address is the end of the mappings before `pos`, every earlier gap is at
most the page-rounded size (the gap predicate is strict `>`), the gap at
`pos` strictly exceeds it, and when no gap qualifies (`pos = length`) the
mapping is placed at the end of the current highest mapping with `mem`
grown to accommodate it. -/
theorem C4_alloc_first_fit {t : List Mapping} {size0 : Nat} {desc : String}
    {memLen : Nat} (hI : InvFull t) (hsz : 0 < size0) (hszle : size0 ≤ 0xFFFFF000)
    (hbd : tableEnd t + round_up_to_page_granularity size0 < U32MOD) :
    (20971520 < round_up_to_page_granularity size0 →
      Mappings.alloc t size0 desc memLen = none) ∧
    (∀ t' memLen' m, Mappings.alloc t size0 desc memLen = some (t', memLen', m) →
      ∃ pos, pos ≤ t.length ∧
        t' = t.insertIdx pos m ∧
        m.size = round_up_to_page_granularity size0 ∧
        m.addr = prevEndAt t pos ∧
        (∀ j, j < pos → ∀ hjl : j < t.length,
          (t[j]).addr - prevEndAt t j ≤ round_up_to_page_granularity size0) ∧
        (∀ h : pos < t.length,
          round_up_to_page_granularity size0 < (t[pos]).addr - prevEndAt t pos) ∧
        (pos = t.length → m.addr = tableEnd t ∧ m.addr + m.size ≤ memLen')) := by
  obtain ⟨hS1, hS2, hS3⟩ := roundUp_spec hszle
  set S := round_up_to_page_granularity size0 with hS
  have hSpos : 0 < S := by omega
  constructor
  · intro hcap
    unfold Mappings.alloc
    rw [← hS]
    simp only
    rw [if_pos hcap]
  · intro t' memLen' m h
    unfold Mappings.alloc at h
    rw [← hS] at h
    obtain ⟨c2, c3, c4, c5⟩ := @allocScan_full S t hI
    set pos := (allocScan S t 0 0).1 with hposdef
    set prevEnd := (allocScan S t 0 0).2 with hpedef
    simp only at h
    rw [← hposdef, ← hpedef] at h
    by_cases hcap : 20971520 < S
    · rw [if_pos hcap] at h
      exact Option.noConfusion h
    rw [if_neg hcap] at h
    refine ⟨pos, c2, ?_⟩
    by_cases hplt : pos < t.length
    · rw [if_pos hplt] at h
      have h2 := Option.some.inj h
      have ht' := congrArg Prod.fst h2
      have hm := congrArg Prod.snd (congrArg Prod.snd h2)
      simp only at ht' hm
      refine ⟨?_, ?_, ?_, ?_, ?_, ?_⟩
      · rw [← ht', ← hm]
      · rw [← hm]
      · rw [← hm]
        exact c3
      · intro j hj hjl
        have := c5 j hj hjl
        omega
      · intro h3
        exact c4 h3
      · intro hpe
        omega
    · rw [if_neg hplt] at h
      have h2 := Option.some.inj h
      have ht' := congrArg Prod.fst h2
      have hmem' := congrArg Prod.fst (congrArg Prod.snd h2)
      have hm := congrArg Prod.snd (congrArg Prod.snd h2)
      simp only at ht' hmem' hm
      have hpe : pos = t.length := by omega
      have hte : prevEnd = tableEnd t := by
        rw [c3, hpe]
        rfl
      refine ⟨?_, ?_, ?_, ?_, ?_, ?_⟩
      · rw [← ht', ← hm]
      · rw [← hm]
      · rw [← hm]
        exact c3
      · intro j hj hjl
        have := c5 j hj hjl
        omega
      · intro h3
        exact absurd h3 hplt
      · intro _
        constructor
        · rw [← hm, hte]
        · rw [← hm, ← hmem']
          show prevEnd + S ≤ _
          by_cases hsp : (if prevEnd < memLen then memLen - prevEnd else 0) < S
          · rw [if_pos hsp]
            have : wrap32 (prevEnd + S) = prevEnd + S := by
              apply wrap32_eq_of_lt
              rw [hte]
              exact hbd
            omega
          · rw [if_neg hsp]
            by_cases hpm : prevEnd < memLen
            · rw [if_pos hpm] at hsp
              omega
            · rw [if_neg hpm] at hsp
              omega

/-- Witness for C4: the E6 scenario — `alloc(0x4000)` on a fresh table
(whose only gap, before the sentinel, is empty) lands at 0x1000. -/
theorem C4_alloc_first_fit_witness :
    ((20971520 < round_up_to_page_granularity 0x4000 →
      Mappings.alloc Mappings.new 0x4000 "a" 0x1000 = none) ∧
    (∀ t' memLen' m,
      Mappings.alloc Mappings.new 0x4000 "a" 0x1000 = some (t', memLen', m) →
      ∃ pos, pos ≤ Mappings.new.length ∧
        t' = Mappings.new.insertIdx pos m ∧
        m.size = round_up_to_page_granularity 0x4000 ∧
        m.addr = prevEndAt Mappings.new pos ∧
        (∀ j, j < pos → ∀ hjl : j < Mappings.new.length,
          (Mappings.new[j]).addr - prevEndAt Mappings.new j ≤
            round_up_to_page_granularity 0x4000) ∧
        (∀ h : pos < Mappings.new.length,
          round_up_to_page_granularity 0x4000 <
            (Mappings.new[pos]).addr - prevEndAt Mappings.new pos) ∧
        (pos = Mappings.new.length → m.addr = tableEnd Mappings.new ∧
          m.addr + m.size ≤ memLen'))) ∧
    Mappings.alloc Mappings.new 0x4000 "a" 0x1000 =
      some ([sentinelMapping, ⟨0x1000, 0x4000, "a", 0⟩], 0x5000,
        ⟨0x1000, 0x4000, "a", 0⟩) :=
  ⟨C4_alloc_first_fit InvFull.new (by decide) (by decide) (by decide), by decide⟩

/-- C10.  `IsBadReadPtr` and `IsBadWritePtr` return `false` for every
pointer and length argument (including 0 and unmapped addresses, which are
just particular values of `lp`), and return the machine state unchanged. -/
theorem C10_is_bad_ptr_stubs {M : Type} (machine : M) (lp ucb : Nat) :
    IsBadReadPtr machine lp ucb = (machine, false) ∧
    IsBadWritePtr machine lp ucb = (machine, false) :=
  ⟨rfl, rfl⟩

/-- C7 (amended).  `GetPixel` on a device context whose target is `Memory`
returns the black `COLORREF` `0x00000000` (the "TODO: actually read"
placeholder) — not `CLR_INVALID`. -/
theorem C7_getpixel_memory_black (machine : DrawMachine) (x y hbitmap : Nat)
    (htarget : machine.dc.target = DCTarget.Memory hbitmap) :
    GetPixel machine x y = some ⟨0⟩ ∧ (⟨0⟩ : COLORREF) ≠ CLR_INVALID := by
  constructor
  · unfold GetPixel
    rw [htarget]
    simp only
    decide
  · decide

/-- Witness for C7 (amended): a concrete Memory-target DC. -/
theorem C7_getpixel_memory_black_witness :
    GetPixel ⟨⟨0, 0, 1, R2.COPYPEN, DCTarget.Memory 5⟩, [], []⟩ 3 4 =
      some ⟨0⟩ :=
  (C7_getpixel_memory_black ⟨⟨0, 0, 1, R2.COPYPEN, DCTarget.Memory 5⟩, [], []⟩
    3 4 5 rfl).1

/-- Counterexample to C7 as stated: on a Memory-target DC, `GetPixel`
returns `COLORREF(0)` (black), which differs from `CLR_INVALID`
(`0xFFFFFFFF`). -/
theorem C7_counterexample :
    GetPixel ⟨⟨0, 0, 1, R2.COPYPEN, DCTarget.Memory 5⟩, [], []⟩ 3 4 =
      some (COLORREF.from_rgb 0 0 0) ∧
    COLORREF.from_rgb 0 0 0 ≠ CLR_INVALID :=
  ⟨rfl, by decide⟩

/-! ## Bitmaps and the blit engine (gdi32/bitmap.rs) -/

/-- `RECT` with `i32` fields. -/
structure RECT where
  left : Int
  top : Int
  right : Int
  bottom : Int
deriving Repr, DecidableEq

/-- An RGBA32 bitmap (`BitmapRGBA32`): width, height and the pixel buffer
that `pixels.as_slice_mut()` exposes (whether `Owned` or `Ptr`-backed is
immaterial to the pixel-level operations). -/
structure BitmapRGBA32 where
  width : Nat
  height : Nat
  pixels : List Px
deriving Repr

/-- Modelled from the spec: `to_rect()` of a bitmap (the method itself lives
outside the given sources) is the rectangle `{0, 0, width, height}`. -/
def BitmapRGBA32.to_rect (b : BitmapRGBA32) : RECT :=
  ⟨0, 0, (b.width : Int), (b.height : Int)⟩

/-- `r` is a sub-rectangle of `outer` (and well oriented). -/
def RECT.insideRect (r outer : RECT) : Prop :=
  outer.left ≤ r.left ∧ r.left ≤ r.right ∧ r.right ≤ outer.right ∧
  outer.top ≤ r.top ∧ r.top ≤ r.bottom ∧ r.bottom ≤ outer.bottom

instance (r outer : RECT) : Decidable (r.insideRect outer) := by
  unfold RECT.insideRect
  infer_instance

/-- The integers of `lo..hi` (a Rust `Range<i32>` loop), in order. -/
def intRange (lo hi : Int) : List Int :=
  (List.range (hi - lo).toNat).map fun (i : Nat) => lo + (i : Int)

/-- The row-major enumeration of a rectangle's coordinates: for each `y`
from `top` to `bottom`, each `x` from `left` to `right`. -/
def rowMajorCoords (r : RECT) : List (Int × Int) :=
  (intRange r.top r.bottom).flatMap fun y =>
    (intRange r.left r.right).map fun x => (x, y)

/-- One pixel store of `fill_pixels`:
`pixels[(y * stride + x) as usize] = px` with `stride = dst.width`.
All in-spec callers pre-clip, so the index is in range there (the source
would panic otherwise). -/
def putPixel (dst : BitmapRGBA32) (x y : Int) (px : Px) : BitmapRGBA32 :=
  { dst with pixels := dst.pixels.set (y * (dst.width : Int) + x).toNat px }

/-- `fill_pixels(dst, rect, op)` with a stateful `op` (the source takes an
`FnMut` closure): iterate `y` over `top..bottom` and `x` over `left..right`,
writing `op(x, y)` to `pixels[y*stride + x]`. -/
def fill_pixels {σ : Type} (dst : BitmapRGBA32) (r : RECT)
    (op : σ → Int → Int → Px × σ) (s : σ) : BitmapRGBA32 × σ :=
  (intRange r.top r.bottom).foldl
    (fun acc y =>
      (intRange r.left r.right).foldl
        (fun acc2 x =>
          let p := op acc2.2 x y
          (putPixel acc2.1 x y p.1, p.2))
        acc)
    (dst, s)

/-- One write step of the row-major specification fold of `fill_pixels`. -/
def fillStep {σ : Type} (op : σ → Int → Int → Px × σ)
    (acc : BitmapRGBA32 × σ) (c : Int × Int) : BitmapRGBA32 × σ :=
  let p := op acc.2 c.1 c.2
  (putPixel acc.1 c.1 c.2 p.1, p.2)

/-- Raster operations (`RasterOp` of the source). -/
inductive RasterOp where
  | SRCCOPY
  | NOTSRCCOPY
  | SRCAND
  | PATCOPY
  | BLACKNESS
deriving Repr, DecidableEq

/-- The per-pixel body of `bit_blt`'s row loop; `none` is the
`todo!("unimplemented BitBlt with rop=...")` arm. -/
def ropApply : RasterOp → Px → Px → Option Px
  | RasterOp.SRCCOPY, _, s => some s
  | RasterOp.NOTSRCCOPY, _, s => some ⟨notByte s.r, notByte s.g, notByte s.b, s.a⟩
  | RasterOp.SRCAND, d, s =>
      some ⟨andByte d.r s.r, andByte d.g s.g, andByte d.b s.b, andByte d.a s.a⟩
  | _, _, _ => none

/-- Apply a recorded write list (index, pixel) left to right. -/
def applyWrites (l : List Px) (ws : List (Nat × Px)) : List Px :=
  ws.foldl (fun acc p => acc.set p.1 p.2) l

/-- One row of `bit_blt`: `w` pixels at consecutive offsets, applying the
raster op (then forcing alpha to `0xFF` when `flush_alpha`), and recording
each written (index, value) and each read source index.  `none` models the
panics (unsupported rop); the out-of-range reads cannot occur because the
row loop checks both spans before entering the row. -/
def bltRow (rop : RasterOp) (flushAlpha : Bool) (src : List Px) :
    Nat → Nat → Nat → List Px → List (Nat × Px) → List Nat →
    Option (List Px × List (Nat × Px) × List Nat)
  | _, _, 0, dst, ws, rs => some (dst, ws, rs)
  | dstOff, srcOff, k + 1, dst, ws, rs =>
      match dst.get? dstOff, src.get? srcOff with
      | some d, some s =>
          match ropApply rop d s with
          | none => none
          | some px0 =>
              let px := if flushAlpha then { px0 with a := 0xFF } else px0
              bltRow rop flushAlpha src (dstOff + 1) (srcOff + 1) k
                (dst.set dstOff px) (ws ++ [(dstOff, px)]) (rs ++ [srcOff])
      | _, _ => none

/-- The row loop of `bit_blt` (all clamped quantities are nonnegative, so
they are carried as `Nat`): for each row compute the two offsets, stop
("break") before any row whose span would extend past either buffer,
otherwise process the row. -/
def bltRows (rop : RasterOp) (flushAlpha : Bool) (src : List Px)
    (dxn dyn sxn syn wn dstride sstride : Nat) :
    Nat → Nat → List Px → List (Nat × Px) → List Nat →
    Option (List Px × List (Nat × Px) × List Nat)
  | _, 0, dst, ws, rs => some (dst, ws, rs)
  | row, k + 1, dst, ws, rs =>
      let dstOff := (dyn + row) * dstride + dxn
      let srcOff := (syn + row) * sstride + sxn
      if dst.length < dstOff + wn ∨ src.length < srcOff + wn then
        some (dst, ws, rs)
      else
        match bltRow rop flushAlpha src dstOff srcOff wn dst ws rs with
        | none => none
        | some r =>
            bltRows rop flushAlpha src dxn dyn sxn syn wn dstride sstride
              (row + 1) k r.1 r.2.1 r.2.2

/-- The clamping prologue of `bit_blt`: negative start coordinates are
symmetrically shifted (reducing `w`/`h` by the same amount) and `w` is
clipped against `dstride - dx` and `sstride - sx`. -/
def bltClamp (dx dy : Int) (dstride : Nat) (w h : Int) (sx sy : Int)
    (sstride : Nat) : Int × Int × Int × Int × Int × Int :=
  let minX := min dx sx
  let dx := if minX < 0 then dx - minX else dx
  let sx := if minX < 0 then sx - minX else sx
  let w := if minX < 0 then w + minX else w
  let minY := min dy sy
  let dy := if minY < 0 then dy - minY else dy
  let sy := if minY < 0 then sy - minY else sy
  let h := if minY < 0 then h + minY else h
  let w := min w ((dstride : Int) - dx)
  let w := min w ((sstride : Int) - sx)
  (dx, dy, sx, sy, w, h)

/-- `bit_blt(dst, dx, dy, dstride, w, h, src, sx, sy, sstride, flush_alpha,
rop)`.  Returns the new destination buffer together with the write trace
(index, pixel written) and the read trace (source indices); `none` models
the `todo!` on unsupported raster ops. -/
def bit_blt (dst : List Px) (dx0 dy0 : Int) (dstride : Nat) (w0 h0 : Int)
    (src : List Px) (sx0 sy0 : Int) (sstride : Nat)
    (flush_alpha : Bool) (rop : RasterOp) :
    Option (List Px × List (Nat × Px) × List Nat) :=
  match bltClamp dx0 dy0 dstride w0 h0 sx0 sy0 sstride with
  | (dx, dy, sx, sy, w, h) =>
      if w ≤ 0 ∨ h ≤ 0 then some (dst, [], [])
      else
        bltRows rop flush_alpha src dx.toNat dy.toNat sx.toNat sy.toNat
          w.toNat dstride sstride 0 h.toNat dst [] []

-- E4: after NOTSRCCOPY on a 1×1 destination, `(0x0F, 0xF0, 0xAA, 0x55)`
-- becomes `(0xF0, 0x0F, 0x55, 0x55)`.
example :
    bit_blt [⟨0x10, 0x20, 0x30, 0xFF⟩] 0 0 1 1 1 [⟨0x0F, 0xF0, 0xAA, 0x55⟩]
      0 0 1 false RasterOp.NOTSRCCOPY =
    some ([⟨0xF0, 0x0F, 0x55, 0x55⟩], [(0, ⟨0xF0, 0x0F, 0x55, 0x55⟩)], [0]) := by
  decide

-- E4: SRCAND of `(0x10, 0x20, 0x30, 0xFF)` and `(0x0F, 0xF0, 0xAA, 0x55)`
-- gives `(0x00, 0x20, 0x20, 0x55)`.
example :
    bit_blt [⟨0x10, 0x20, 0x30, 0xFF⟩] 0 0 1 1 1 [⟨0x0F, 0xF0, 0xAA, 0x55⟩]
      0 0 1 false RasterOp.SRCAND =
    some ([⟨0x00, 0x20, 0x20, 0x55⟩], [(0, ⟨0x00, 0x20, 0x20, 0x55⟩)], [0]) := by
  decide

theorem bltRow_spec {rop : RasterOp} {fa : Bool} {src : List Px} :
    ∀ {wn : Nat} {dstOff srcOff : Nat} {dst : List Px} {ws : List (Nat × Px)}
      {rs : List Nat} {dst' : List Px} {ws' : List (Nat × Px)} {rs' : List Nat},
      bltRow rop fa src dstOff srcOff wn dst ws rs = some (dst', ws', rs') →
      dst'.length = dst.length ∧
      (∀ p ∈ ws', p ∈ ws ∨ (dstOff ≤ p.1 ∧ p.1 < dstOff + wn)) ∧
      (∀ i ∈ rs', i ∈ rs ∨ (srcOff ≤ i ∧ i < srcOff + wn)) := by
  intro wn
  induction wn with
  | zero =>
      intro dstOff srcOff dst ws rs dst' ws' rs' h
      obtain ⟨h1, h2⟩ := Prod.mk.inj (Option.some.inj h)
      obtain ⟨h3, h4⟩ := Prod.mk.inj h2
      subst h1; subst h3; subst h4
      exact ⟨rfl, fun p hp => Or.inl hp, fun i hi => Or.inl hi⟩
  | succ k ih =>
      intro dstOff srcOff dst ws rs dst' ws' rs' h
      rw [bltRow] at h
      rcases hd : dst.get? dstOff with _ | d <;> rw [hd] at h
      · exact Option.noConfusion h
      rcases hs : src.get? srcOff with _ | s <;> rw [hs] at h
      · exact Option.noConfusion h
      simp only at h
      rcases hr : ropApply rop d s with _ | px0 <;> rw [hr] at h
      · exact Option.noConfusion h
      simp only at h
      obtain ⟨l1, l2, l3⟩ := ih h
      rw [List.length_set] at l1
      refine ⟨l1, ?_, ?_⟩
      · intro p hp
        rcases l2 p hp with hin | hrange
        · rcases List.mem_append.mp hin with hin2 | hin2
          · exact Or.inl hin2
          · simp only [List.mem_singleton] at hin2
            subst hin2
            exact Or.inr ⟨le_refl _, by omega⟩
        · exact Or.inr ⟨by omega, by omega⟩
      · intro i hi
        rcases l3 i hi with hin | hrange
        · rcases List.mem_append.mp hin with hin2 | hin2
          · exact Or.inl hin2
          · simp only [List.mem_singleton] at hin2
            subst hin2
            exact Or.inr ⟨le_refl _, by omega⟩
        · exact Or.inr ⟨by omega, by omega⟩

theorem bltRows_spec {rop : RasterOp} {fa : Bool} {src : List Px}
    {dxn dyn sxn syn wn dstride sstride : Nat} :
    ∀ {k row : Nat} {dst : List Px} {ws : List (Nat × Px)} {rs : List Nat}
      {dst' : List Px} {ws' : List (Nat × Px)} {rs' : List Nat},
      bltRows rop fa src dxn dyn sxn syn wn dstride sstride row k dst ws rs =
        some (dst', ws', rs') →
      dst'.length = dst.length ∧
      (∀ p ∈ ws', p ∈ ws ∨ p.1 < dst.length) ∧
      (∀ i ∈ rs', i ∈ rs ∨ i < src.length) := by
  intro k
  induction k with
  | zero =>
      intro row dst ws rs dst' ws' rs' h
      obtain ⟨h1, h2⟩ := Prod.mk.inj (Option.some.inj h)
      obtain ⟨h3, h4⟩ := Prod.mk.inj h2
      subst h1; subst h3; subst h4
      exact ⟨rfl, fun p hp => Or.inl hp, fun i hi => Or.inl hi⟩
  | succ n ih =>
      intro row dst ws rs dst' ws' rs' h
      rw [bltRows] at h
      by_cases hbreak :
          dst.length < (dyn + row) * dstride + dxn + wn ∨
            src.length < (syn + row) * sstride + sxn + wn
      · rw [if_pos hbreak] at h
        obtain ⟨h1, h2⟩ := Prod.mk.inj (Option.some.inj h)
        obtain ⟨h3, h4⟩ := Prod.mk.inj h2
        subst h1; subst h3; subst h4
        exact ⟨rfl, fun p hp => Or.inl hp, fun i hi => Or.inl hi⟩
      · rw [if_neg hbreak] at h
        push_neg at hbreak
        obtain ⟨hdb, hsb⟩ := hbreak
        rcases hrow : bltRow rop fa src ((dyn + row) * dstride + dxn)
            ((syn + row) * sstride + sxn) wn dst ws rs with _ | r <;>
          rw [hrow] at h
        · exact Option.noConfusion h
        simp only at h
        obtain ⟨r1, r2, r3⟩ := bltRow_spec hrow
        obtain ⟨l1, l2, l3⟩ := ih h
        refine ⟨by omega, ?_, ?_⟩
        · intro p hp
          rcases l2 p hp with hin | hlt
          · rcases r2 p hin with hin2 | hrange
            · exact Or.inl hin2
            · exact Or.inr (by omega)
          · exact Or.inr (by omega)
        · intro i hi
          rcases l3 i hi with hin | hlt
          · rcases r3 i hin with hin2 | hrange
            · exact Or.inl hin2
            · exact Or.inr (by omega)
          · exact Or.inr hlt

/-- C3.  For every argument combination, the low-level `bit_blt` preserves
the destination length, writes only indices inside the destination buffer,
reads only indices inside the source buffer, and — whenever the clamped
width or height is ≤ 0 — writes nothing at all. -/
theorem C3_bit_blt_bounds (dst : List Px) (dx0 dy0 : Int) (dstride : Nat)
    (w0 h0 : Int) (src : List Px) (sx0 sy0 : Int) (sstride : Nat)
    (fa : Bool) (rop : RasterOp) (out : List Px) (ws : List (Nat × Px))
    (rs : List Nat)
    (h : bit_blt dst dx0 dy0 dstride w0 h0 src sx0 sy0 sstride fa rop =
      some (out, ws, rs)) :
    out.length = dst.length ∧
    (∀ p ∈ ws, p.1 < dst.length) ∧
    (∀ i ∈ rs, i < src.length) ∧
    (∀ dx dy sx sy w hh,
      bltClamp dx0 dy0 dstride w0 h0 sx0 sy0 sstride = (dx, dy, sx, sy, w, hh) →
      w ≤ 0 ∨ hh ≤ 0 → out = dst ∧ ws = [] ∧ rs = []) := by
  unfold bit_blt at h
  rcases hcl : bltClamp dx0 dy0 dstride w0 h0 sx0 sy0 sstride with
    ⟨dx, dy, sx, sy, w, hh⟩
  rw [hcl] at h
  simp only at h
  by_cases hle : w ≤ 0 ∨ hh ≤ 0
  · rw [if_pos hle] at h
    obtain ⟨h1, h2⟩ := Prod.mk.inj (Option.some.inj h)
    obtain ⟨h3, h4⟩ := Prod.mk.inj h2
    subst h1; subst h3; subst h4
    exact ⟨rfl, by simp, by simp, fun _ _ _ _ _ _ _ _ => ⟨rfl, rfl, rfl⟩⟩
  · rw [if_neg hle] at h
    obtain ⟨l1, l2, l3⟩ := bltRows_spec h
    refine ⟨l1, ?_, ?_, ?_⟩
    · intro p hp
      rcases l2 p hp with hin | hlt
      · exact absurd hin (List.not_mem_nil p)
      · exact hlt
    · intro i hi
      rcases l3 i hi with hin | hlt
      · exact absurd hin (List.not_mem_nil i)
      · exact hlt
    · intro dx' dy' sx' sy' w' hh' hcl' hle'
      obtain ⟨e1, e2, e3, e4, e5, e6⟩ :
          dx = dx' ∧ dy = dy' ∧ sx = sx' ∧ sy = sy' ∧ w = w' ∧ hh = hh' := by
        obtain ⟨a1, b1⟩ := Prod.mk.inj hcl'
        obtain ⟨a2, b2⟩ := Prod.mk.inj b1
        obtain ⟨a3, b3⟩ := Prod.mk.inj b2
        obtain ⟨a4, b4⟩ := Prod.mk.inj b3
        obtain ⟨a5, a6⟩ := Prod.mk.inj b4
        exact ⟨a1, a2, a3, a4, a5, a6⟩
      subst e5; subst e6
      exact absurd hle' hle

/-- Witness for C3: the E3-style call with negative destination start
`(-2, 0)`; the clamp absorbs the shift and the single write lands inside
both buffers. -/
theorem C3_bit_blt_bounds_witness :
    ([⟨3, 3, 3, 3⟩, ⟨8, 8, 8, 8⟩, ⟨7, 7, 7, 7⟩, ⟨6, 6, 6, 6⟩] : List Px).length =
        ([⟨9, 9, 9, 9⟩, ⟨8, 8, 8, 8⟩, ⟨7, 7, 7, 7⟩, ⟨6, 6, 6, 6⟩] : List Px).length ∧
    (∀ p ∈ [((0 : Nat), (⟨3, 3, 3, 3⟩ : Px))],
      p.1 < ([⟨9, 9, 9, 9⟩, ⟨8, 8, 8, 8⟩, ⟨7, 7, 7, 7⟩, ⟨6, 6, 6, 6⟩] : List Px).length) ∧
    (∀ i ∈ [(2 : Nat)],
      i < ([⟨1, 1, 1, 1⟩, ⟨2, 2, 2, 2⟩, ⟨3, 3, 3, 3⟩, ⟨4, 4, 4, 4⟩] : List Px).length) ∧
    (∀ dx dy sx sy w hh,
      bltClamp (-2) 0 4 3 1 0 0 4 = (dx, dy, sx, sy, w, hh) →
      w ≤ 0 ∨ hh ≤ 0 →
      ([⟨3, 3, 3, 3⟩, ⟨8, 8, 8, 8⟩, ⟨7, 7, 7, 7⟩, ⟨6, 6, 6, 6⟩] : List Px) =
          [⟨9, 9, 9, 9⟩, ⟨8, 8, 8, 8⟩, ⟨7, 7, 7, 7⟩, ⟨6, 6, 6, 6⟩] ∧
        [((0 : Nat), (⟨3, 3, 3, 3⟩ : Px))] = [] ∧ [(2 : Nat)] = []) :=
  C3_bit_blt_bounds [⟨9, 9, 9, 9⟩, ⟨8, 8, 8, 8⟩, ⟨7, 7, 7, 7⟩, ⟨6, 6, 6, 6⟩]
    (-2) 0 4 3 1 [⟨1, 1, 1, 1⟩, ⟨2, 2, 2, 2⟩, ⟨3, 3, 3, 3⟩, ⟨4, 4, 4, 4⟩]
    0 0 4 false RasterOp.SRCCOPY _ _ _ (by decide)

theorem foldl_flatMap {α β γ : Type} (l : List α) (g : α → List β)
    (f : γ → β → γ) (init : γ) :
    (l.flatMap g).foldl f init =
      l.foldl (fun acc a => (g a).foldl f acc) init := by
  induction l generalizing init with
  | nil => rfl
  | cons a l ih =>
      rw [List.flatMap_cons, List.foldl_append, List.foldl_cons, ih]

theorem mem_intRange {lo hi x : Int} : x ∈ intRange lo hi ↔ lo ≤ x ∧ x < hi := by
  unfold intRange
  simp only [List.mem_map, List.mem_range]
  constructor
  · rintro ⟨i, hi, rfl⟩
    omega
  · rintro ⟨h1, h2⟩
    exact ⟨(x - lo).toNat, by omega, by omega⟩

theorem intRange_length (lo hi : Int) : (intRange lo hi).length = (hi - lo).toNat := by
  unfold intRange
  rw [List.length_map, List.length_range]

theorem mem_rowMajorCoords {r : RECT} {c : Int × Int} :
    c ∈ rowMajorCoords r ↔
      r.left ≤ c.1 ∧ c.1 < r.right ∧ r.top ≤ c.2 ∧ c.2 < r.bottom := by
  unfold rowMajorCoords
  rw [List.mem_flatMap]
  constructor
  · rintro ⟨y, hy, hc⟩
    rw [List.mem_map] at hc
    obtain ⟨x, hx, rfl⟩ := hc
    rw [mem_intRange] at hy hx
    exact ⟨hx.1, hx.2, hy.1, hy.2⟩
  · rintro ⟨h1, h2, h3, h4⟩
    exact ⟨c.2, mem_intRange.mpr ⟨h3, h4⟩,
      List.mem_map.mpr ⟨c.1, mem_intRange.mpr ⟨h1, h2⟩, rfl⟩⟩

theorem length_flatMap_const {α β : Type} (l : List α) (g : α → List β) (n : Nat)
    (h : ∀ a ∈ l, (g a).length = n) : (l.flatMap g).length = l.length * n := by
  induction l with
  | nil => simp
  | cons a l ih =>
      rw [List.flatMap_cons, List.length_append, h a (by simp),
        ih (fun b hb => h b (by simp [hb])), List.length_cons]
      ring

theorem rowMajorCoords_length (r : RECT) :
    (rowMajorCoords r).length =
      (r.bottom - r.top).toNat * (r.right - r.left).toNat := by
  unfold rowMajorCoords
  rw [length_flatMap_const _ _ ((r.right - r.left).toNat)
    (fun y _ => by rw [List.length_map, intRange_length]), intRange_length]

theorem fill_pixels_eq_rowMajor {σ : Type} (dst : BitmapRGBA32) (r : RECT)
    (op : σ → Int → Int → Px × σ) (s : σ) :
    fill_pixels dst r op s = (rowMajorCoords r).foldl (fillStep op) (dst, s) := by
  unfold fill_pixels rowMajorCoords
  rw [foldl_flatMap]
  simp only [List.foldl_map]
  rfl

/-- Distinct in-row coordinates produce distinct `y*stride + x` indices. -/
theorem rowIndex_inj {W x1 y1 x2 y2 : Int} (hW : 0 ≤ W)
    (h1 : 0 ≤ x1) (h2 : x1 < W) (h3 : 0 ≤ x2) (h4 : x2 < W)
    (heq : y1 * W + x1 = y2 * W + x2) : x1 = x2 ∧ y1 = y2 := by
  have hd : (y2 - y1) * W = y2 * W - y1 * W := by ring
  rcases lt_trichotomy y1 y2 with hy | hy | hy
  · have h5 : (1 : Int) * W ≤ (y2 - y1) * W :=
      mul_le_mul_of_nonneg_right (by omega) hW
    rw [one_mul] at h5
    omega
  · constructor
    · subst hy; omega
    · exact hy
  · have hd2 : (y1 - y2) * W = y1 * W - y2 * W := by ring
    have h5 : (1 : Int) * W ≤ (y1 - y2) * W :=
      mul_le_mul_of_nonneg_right (by omega) hW
    rw [one_mul] at h5
    omega

/-- Folding `fillStep` over any coordinate list keeps the bitmap's width
and leaves untouched every pixel index hit by none of the coordinates. -/
theorem foldl_fillStep_outside {σ : Type} (op : σ → Int → Int → Px × σ) :
    ∀ (cs : List (Int × Int)) (acc : BitmapRGBA32 × σ) (i : Nat),
      (∀ c ∈ cs, (c.2 * (acc.1.width : Int) + c.1).toNat ≠ i) →
      (cs.foldl (fillStep op) acc).1.width = acc.1.width ∧
      (cs.foldl (fillStep op) acc).1.pixels.get? i = acc.1.pixels.get? i := by
  intro cs
  induction cs with
  | nil => exact fun acc i _ => ⟨rfl, rfl⟩
  | cons c cs ih =>
      intro acc i hne
      rw [List.foldl_cons]
      have hwidth : (fillStep op acc c).1.width = acc.1.width := rfl
      obtain ⟨ihw, ihp⟩ := ih (fillStep op acc c) i (by
        intro c' hc'
        rw [hwidth]
        exact hne c' (List.mem_cons_of_mem _ hc'))
      refine ⟨by rw [ihw, hwidth], ?_⟩
      rw [ihp]
      show ((putPixel acc.1 c.1 c.2 _).pixels).get? i = acc.1.pixels.get? i
      unfold putPixel
      simp only
      rw [List.get?_eq_getElem?, List.get?_eq_getElem?]
      exact List.getElem?_set_ne (hne c (List.mem_cons_self c cs))

/-- C2.  For every RGBA32 bitmap `b` (well-formed pixel buffer), rectangle
`r ⊆ b.to_rect()` and (stateful) pixel function `op`: `fill_pixels` is the
row-major (top-to-bottom, left-to-right) fold writing `op(x, y)` to
`pixels[y*stride + x]` over exactly the coordinates of `r`; the number of
those writes is `(r.right - r.left) * (r.bottom - r.top)`; and every pixel
of `b` outside `r` is unchanged. -/
theorem C2_fill_pixels_frame {σ : Type} (dst : BitmapRGBA32) (r : RECT)
    (op : σ → Int → Int → Px × σ) (s : σ)
    (wf : dst.pixels.length = dst.width * dst.height)
    (hr : r.insideRect dst.to_rect) :
    fill_pixels dst r op s = (rowMajorCoords r).foldl (fillStep op) (dst, s) ∧
    ((rowMajorCoords r).length : Int) = (r.right - r.left) * (r.bottom - r.top) ∧
    (∀ x y : Int, 0 ≤ x → x < (dst.width : Int) → 0 ≤ y → y < (dst.height : Int) →
      ¬(r.left ≤ x ∧ x < r.right ∧ r.top ≤ y ∧ y < r.bottom) →
      (fill_pixels dst r op s).1.pixels.get? (y * (dst.width : Int) + x).toNat =
        dst.pixels.get? (y * (dst.width : Int) + x).toNat) := by
  obtain ⟨hc1, hc2, hc3, hc4, hc5, hc6⟩ := hr
  simp only [BitmapRGBA32.to_rect] at hc1 hc3 hc4 hc6
  refine ⟨fill_pixels_eq_rowMajor dst r op s, ?_, ?_⟩
  · rw [rowMajorCoords_length]
    push_cast [Int.toNat_of_nonneg (show (0 : Int) ≤ r.bottom - r.top by omega),
      Int.toNat_of_nonneg (show (0 : Int) ≤ r.right - r.left by omega)]
    ring
  · intro x y hx1 hx2 hy1 hy2 hout
    rw [fill_pixels_eq_rowMajor]
    refine (foldl_fillStep_outside op (rowMajorCoords r) (dst, s)
      (y * (dst.width : Int) + x).toNat ?_).2
    intro c hc
    show (c.2 * (dst.width : Int) + c.1).toNat ≠ (y * (dst.width : Int) + x).toNat
    rw [mem_rowMajorCoords] at hc
    obtain ⟨hm1, hm2, hm3, hm4⟩ := hc
    intro heqN
    have hxc : (0 : Int) ≤ c.1 := by omega
    have hyc : (0 : Int) ≤ c.2 := by omega
    have hnn1 : (0 : Int) ≤ c.2 * (dst.width : Int) + c.1 := by positivity
    have hnn2 : (0 : Int) ≤ y * (dst.width : Int) + x := by positivity
    have heq : c.2 * (dst.width : Int) + c.1 = y * (dst.width : Int) + x := by
      omega
    obtain ⟨hxx, hyy⟩ := rowIndex_inj (by positivity) hxc (by omega) hx1 hx2 heq
    exact hout ⟨by omega, by omega, by omega, by omega⟩

/-- Witness for C2: a 4×3 zeroed bitmap and the rectangle `(1,1)-(3,3)`,
with a call-counting stateful op. -/
theorem C2_fill_pixels_frame_witness :
    fill_pixels ⟨4, 3, List.replicate 12 ⟨0, 0, 0, 0⟩⟩ ⟨1, 1, 3, 3⟩
        (fun (s : Nat) _x _y => (⟨1, 2, 3, 4⟩, s + 1)) 0 =
      (rowMajorCoords ⟨1, 1, 3, 3⟩).foldl
        (fillStep fun (s : Nat) _x _y => (⟨1, 2, 3, 4⟩, s + 1))
        (⟨4, 3, List.replicate 12 ⟨0, 0, 0, 0⟩⟩, 0) ∧
    ((rowMajorCoords ⟨1, 1, 3, 3⟩).length : Int) = (3 - 1) * (3 - 1) ∧
    (∀ x y : Int, 0 ≤ x → x < (4 : Int) → 0 ≤ y → y < (3 : Int) →
      ¬((1 : Int) ≤ x ∧ x < 3 ∧ (1 : Int) ≤ y ∧ y < 3) →
      (fill_pixels ⟨4, 3, List.replicate 12 ⟨0, 0, 0, 0⟩⟩ ⟨1, 1, 3, 3⟩
          (fun (s : Nat) _x _y => (⟨1, 2, 3, 4⟩, s + 1)) 0).1.pixels.get?
          (y * (4 : Int) + x).toNat =
        (List.replicate 12 (⟨0, 0, 0, 0⟩ : Px)).get? (y * (4 : Int) + x).toNat) :=
  C2_fill_pixels_frame ⟨4, 3, List.replicate 12 ⟨0, 0, 0, 0⟩⟩ ⟨1, 1, 3, 3⟩
    (fun (s : Nat) _x _y => (⟨1, 2, 3, 4⟩, s + 1)) 0 (by decide) (by decide)

/-! ## NOTSRCCOPY applied twice (claim C6) -/

/-- The pixel `bit_blt` writes under NOTSRCCOPY for source pixel `s`
(complement the RGB channels, keep — or force, under `flush_alpha` —
the alpha). -/
def notSrcPx (fa : Bool) (s : Px) : Px :=
  let p : Px := ⟨notByte s.r, notByte s.g, notByte s.b, s.a⟩
  if fa then { p with a := 0xFF } else p

/-- The (index, value) writes of one NOTSRCCOPY row. -/
def rowWritesN (fa : Bool) (src : List Px) (dstOff srcOff wn : Nat) :
    List (Nat × Px) :=
  (List.range wn).map fun i =>
    (dstOff + i, notSrcPx fa (src.getD (srcOff + i) ⟨0, 0, 0, 0⟩))

/-- The source indices one row reads. -/
def rowReads (srcOff wn : Nat) : List Nat :=
  (List.range wn).map fun i => srcOff + i

theorem applyWrites_length (ws : List (Nat × Px)) :
    ∀ l : List Px, (applyWrites l ws).length = l.length := by
  induction ws with
  | nil => intro l; rfl
  | cons p ws ih =>
      intro l
      show (applyWrites (l.set p.1 p.2) ws).length = l.length
      rw [ih, List.length_set]

theorem rowWritesN_succ (fa : Bool) (src : List Px) (dstOff srcOff k : Nat) :
    rowWritesN fa src dstOff srcOff (k + 1) =
      (dstOff, notSrcPx fa (src.getD srcOff ⟨0, 0, 0, 0⟩)) ::
        rowWritesN fa src (dstOff + 1) (srcOff + 1) k := by
  unfold rowWritesN
  rw [List.range_succ_eq_map, List.map_cons, List.map_map]
  refine congrArg₂ List.cons (by simp) ?_
  apply List.map_congr_left
  intro i _
  show (dstOff + (i + 1), notSrcPx fa (src.getD (srcOff + (i + 1)) ⟨0, 0, 0, 0⟩)) =
    (dstOff + 1 + i, notSrcPx fa (src.getD (srcOff + 1 + i) ⟨0, 0, 0, 0⟩))
  rw [show dstOff + (i + 1) = dstOff + 1 + i from by omega,
    show srcOff + (i + 1) = srcOff + 1 + i from by omega]

theorem rowReads_succ (srcOff k : Nat) :
    rowReads srcOff (k + 1) = srcOff :: rowReads (srcOff + 1) k := by
  unfold rowReads
  rw [List.range_succ_eq_map, List.map_cons, List.map_map]
  refine congrArg₂ List.cons (by simp) ?_
  apply List.map_congr_left
  intro i _
  show srcOff + (i + 1) = srcOff + 1 + i
  omega

/-- A NOTSRCCOPY row whose spans are in bounds always succeeds and equals
the recorded writes applied to the destination. -/
theorem bltRow_notsrc_char {fa : Bool} {src : List Px} :
    ∀ (wn dstOff srcOff : Nat) (dst : List Px) (ws : List (Nat × Px))
      (rs : List Nat), dstOff + wn ≤ dst.length → srcOff + wn ≤ src.length →
      bltRow RasterOp.NOTSRCCOPY fa src dstOff srcOff wn dst ws rs =
        some (applyWrites dst (rowWritesN fa src dstOff srcOff wn),
          ws ++ rowWritesN fa src dstOff srcOff wn,
          rs ++ rowReads srcOff wn) := by
  intro wn
  induction wn with
  | zero =>
      intro dstOff srcOff dst ws rs hd hs
      simp [bltRow, rowWritesN, rowReads, applyWrites]
  | succ k ih =>
      intro dstOff srcOff dst ws rs hd hs
      rw [bltRow]
      have hdlt : dstOff < dst.length := by omega
      have hslt : srcOff < src.length := by omega
      rw [List.get?_eq_getElem?, List.getElem?_eq_getElem hdlt]
      rw [List.get?_eq_getElem?, List.getElem?_eq_getElem hslt]
      simp only [ropApply]
      have hrec := ih (dstOff + 1) (srcOff + 1)
        (dst.set dstOff (notSrcPx fa (src[srcOff])))
        (ws ++ [(dstOff, notSrcPx fa (src[srcOff]))]) (rs ++ [srcOff])
        (by rw [List.length_set]; omega) (by omega)
      show bltRow RasterOp.NOTSRCCOPY fa src (dstOff + 1) (srcOff + 1) k
          (dst.set dstOff (notSrcPx fa (src[srcOff])))
          (ws ++ [(dstOff, notSrcPx fa (src[srcOff]))]) (rs ++ [srcOff]) =
        some (applyWrites dst (rowWritesN fa src dstOff srcOff (k + 1)),
          ws ++ rowWritesN fa src dstOff srcOff (k + 1),
          rs ++ rowReads srcOff (k + 1))
      rw [hrec, rowWritesN_succ, rowReads_succ,
        List.getD_eq_getElem src ⟨0, 0, 0, 0⟩ hslt]
      show _ = some (applyWrites (dst.set dstOff (notSrcPx fa (src[srcOff])))
          (rowWritesN fa src (dstOff + 1) (srcOff + 1) k), _, _)
      simp

theorem applyWrites_append (l : List Px) (a b : List (Nat × Px)) :
    applyWrites l (a ++ b) = applyWrites (applyWrites l a) b :=
  List.foldl_append _ _ a b

/-- The writes and reads the NOTSRCCOPY row loop performs, as a function of
the destination length only (not its contents). -/
def rowsWrites (fa : Bool) (src : List Px)
    (dxn dyn sxn syn wn dstride sstride dlen : Nat) :
    Nat → Nat → List (Nat × Px) × List Nat
  | _, 0 => ([], [])
  | row, k + 1 =>
      let dstOff := (dyn + row) * dstride + dxn
      let srcOff := (syn + row) * sstride + sxn
      if dlen < dstOff + wn ∨ src.length < srcOff + wn then ([], [])
      else
        let rest := rowsWrites fa src dxn dyn sxn syn wn dstride sstride dlen
          (row + 1) k
        (rowWritesN fa src dstOff srcOff wn ++ rest.1,
          rowReads srcOff wn ++ rest.2)

/-- The NOTSRCCOPY row loop always succeeds; its output is the (purely
length-determined) write list applied to the destination. -/
theorem bltRows_notsrc_char {fa : Bool} {src : List Px}
    {dxn dyn sxn syn wn dstride sstride : Nat} :
    ∀ (k row : Nat) (dst : List Px) (ws : List (Nat × Px)) (rs : List Nat),
      bltRows RasterOp.NOTSRCCOPY fa src dxn dyn sxn syn wn dstride sstride
          row k dst ws rs =
        some (applyWrites dst
            (rowsWrites fa src dxn dyn sxn syn wn dstride sstride dst.length
              row k).1,
          ws ++ (rowsWrites fa src dxn dyn sxn syn wn dstride sstride
            dst.length row k).1,
          rs ++ (rowsWrites fa src dxn dyn sxn syn wn dstride sstride
            dst.length row k).2) := by
  intro k
  induction k with
  | zero =>
      intro row dst ws rs
      simp [bltRows, rowsWrites, applyWrites]
  | succ n ih =>
      intro row dst ws rs
      rw [bltRows, rowsWrites]
      by_cases hbreak :
          dst.length < (dyn + row) * dstride + dxn + wn ∨
            src.length < (syn + row) * sstride + sxn + wn
      · rw [if_pos hbreak, if_pos hbreak]
        simp [applyWrites]
      · rw [if_neg hbreak, if_neg hbreak]
        push_neg at hbreak
        obtain ⟨hdb, hsb⟩ := hbreak
        rw [bltRow_notsrc_char wn ((dyn + row) * dstride + dxn)
          ((syn + row) * sstride + sxn) dst ws rs (by omega) (by omega)]
        simp only
        rw [ih (row + 1) (applyWrites dst
          (rowWritesN fa src ((dyn + row) * dstride + dxn)
            ((syn + row) * sstride + sxn) wn)) _ _]
        rw [applyWrites_length]
        rw [← applyWrites_append]
        simp [List.append_assoc]

/-- The value the last write at index `i` of a write list leaves, if any. -/
def lastVal (ws : List (Nat × Px)) (i : Nat) : Option Px :=
  ws.foldl (fun acc p => if p.1 = i then some p.2 else acc) none

theorem foldl_lastVal_acc (i : Nat) :
    ∀ (ws : List (Nat × Px)) (acc : Option Px),
      ws.foldl (fun a p => if p.1 = i then some p.2 else a) acc =
        match lastVal ws i with
        | some v => some v
        | none => acc := by
  intro ws
  induction ws with
  | nil => intro acc; rfl
  | cons p ws ih =>
      intro acc
      rw [List.foldl_cons, ih]
      have hlv : lastVal (p :: ws) i =
          match lastVal ws i with
          | some v => some v
          | none => if p.1 = i then some p.2 else none := by
        show ws.foldl _ (if p.1 = i then some p.2 else none) = _
        rw [ih]
      rw [hlv]
      cases h : lastVal ws i with
      | some v => rfl
      | none => by_cases hpi : p.1 = i <;> simp [hpi]

theorem applyWrites_getElem? (i : Nat) :
    ∀ (ws : List (Nat × Px)) (l : List Px),
      (applyWrites l ws)[i]? =
        match lastVal ws i with
        | some v => if i < l.length then some v else none
        | none => l[i]? := by
  intro ws
  induction ws with
  | nil => intro l; rfl
  | cons p ws ih =>
      intro l
      show (applyWrites (l.set p.1 p.2) ws)[i]? = _
      rw [ih (l.set p.1 p.2)]
      have hlv : lastVal (p :: ws) i =
          match lastVal ws i with
          | some v => some v
          | none => if p.1 = i then some p.2 else none := by
        show ws.foldl _ (if p.1 = i then some p.2 else none) = _
        rw [foldl_lastVal_acc]
      rw [hlv]
      cases h : lastVal ws i with
      | some v => simp [List.length_set]
      | none =>
          by_cases hpi : p.1 = i
          · subst hpi
            simp [List.getElem?_set, List.length_set]
          · simp [List.getElem?_set_ne hpi, hpi]

theorem applyWrites_idem (l : List Px) (ws : List (Nat × Px)) :
    applyWrites (applyWrites l ws) ws = applyWrites l ws := by
  apply List.ext_getElem?
  intro i
  rw [applyWrites_getElem? i ws (applyWrites l ws),
    applyWrites_getElem? i ws l, applyWrites_length]
  cases h : lastVal ws i with
  | some v => rfl
  | none => rfl

/-- C6 (amended).  Applying `bit_blt` with NOTSRCCOPY a second time with
the same coordinates (source and destination being separate buffers, hence
disjoint) changes nothing: the result, write trace and read trace equal the
first application's.  The destination RGB after either run is the bitwise
complement of the source — not the original destination values. -/
theorem C6_notsrccopy_twice (dst : List Px) (dx0 dy0 : Int) (dstride : Nat)
    (w0 h0 : Int) (src : List Px) (sx0 sy0 : Int) (sstride : Nat) (fa : Bool)
    {out : List Px} {ws : List (Nat × Px)} {rs : List Nat}
    (h1 : bit_blt dst dx0 dy0 dstride w0 h0 src sx0 sy0 sstride fa
      RasterOp.NOTSRCCOPY = some (out, ws, rs)) :
    bit_blt out dx0 dy0 dstride w0 h0 src sx0 sy0 sstride fa
      RasterOp.NOTSRCCOPY = some (out, ws, rs) := by
  unfold bit_blt at h1 ⊢
  rcases hcl : bltClamp dx0 dy0 dstride w0 h0 sx0 sy0 sstride with
    ⟨dx, dy, sx, sy, w, hh⟩
  rw [hcl] at h1
  simp only at h1 ⊢
  by_cases hle : w ≤ 0 ∨ hh ≤ 0
  · rw [if_pos hle] at h1 ⊢
    obtain ⟨e1, e2⟩ := Prod.mk.inj (Option.some.inj h1)
    obtain ⟨e3, e4⟩ := Prod.mk.inj e2
    subst e1; subst e3; subst e4
    rfl
  · rw [if_neg hle] at h1 ⊢
    rw [bltRows_notsrc_char hh.toNat 0 dst [] []] at h1
    obtain ⟨e1, e2⟩ := Prod.mk.inj (Option.some.inj h1)
    obtain ⟨e3, e4⟩ := Prod.mk.inj e2
    subst e1
    subst e3
    subst e4
    rw [bltRows_notsrc_char hh.toNat 0 _ [] []]
    rw [applyWrites_length, applyWrites_idem]

/-- Counterexample to C6 as stated: on disjoint 1×1 buffers, NOTSRCCOPY
applied twice leaves the destination at the complement of the source,
`(255,255,255)`, not at the original destination RGB `(1,2,3)`. -/
theorem C6_counterexample :
    bit_blt [⟨1, 2, 3, 4⟩] 0 0 1 1 1 [⟨0, 0, 0, 0⟩] 0 0 1 false
        RasterOp.NOTSRCCOPY =
      some ([⟨255, 255, 255, 0⟩], [(0, ⟨255, 255, 255, 0⟩)], [0]) ∧
    bit_blt [⟨255, 255, 255, 0⟩] 0 0 1 1 1 [⟨0, 0, 0, 0⟩] 0 0 1 false
        RasterOp.NOTSRCCOPY =
      some ([⟨255, 255, 255, 0⟩], [(0, ⟨255, 255, 255, 0⟩)], [0]) ∧
    ¬((⟨255, 255, 255, 0⟩ : Px).r = (⟨1, 2, 3, 4⟩ : Px).r ∧
      (⟨255, 255, 255, 0⟩ : Px).g = (⟨1, 2, 3, 4⟩ : Px).g ∧
      (⟨255, 255, 255, 0⟩ : Px).b = (⟨1, 2, 3, 4⟩ : Px).b) :=
  ⟨by decide, by decide, by decide⟩

/-- Witness for C6 (amended): the second NOTSRCCOPY application on the 1×1
result changes nothing. -/
theorem C6_notsrccopy_twice_witness :
    bit_blt [(⟨255, 255, 255, 0⟩ : Px)] 0 0 1 1 1 [(⟨0, 0, 0, 0⟩ : Px)] 0 0 1
        false RasterOp.NOTSRCCOPY =
      some ([⟨255, 255, 255, 0⟩], [(0, ⟨255, 255, 255, 0⟩)], [0]) :=
  C6_notsrccopy_twice [⟨1, 2, 3, 4⟩] 0 0 1 1 1 [⟨0, 0, 0, 0⟩] 0 0 1 false
    (by decide)

/-! ## LineTo (gdi32/draw.rs, claim C9) -/

/-- `ascending(a, b)`: order a pair of coordinates. -/
def ascending (a b : Nat) : Nat × Nat := if b < a then (b, a) else (a, b)

/-- The inclusive range `a..=b` as a list. -/
def natRangeIncl (a b : Nat) : List Nat :=
  (List.range (b + 1 - a)).map fun (i : Nat) => a + i

/-- Write the same colour at a list of pixel indices, failing on the first
out-of-range index (the source's `pixels[...] = color` panics there). -/
def lineWrite (pixels : List Px) (idxs : List Nat) (c : Px) : Option (List Px) :=
  idxs.foldlM
    (fun acc i => if i < acc.length then some (acc.set i c) else none) pixels

/-- Replace the object stored under a handle in a registry. -/
def updateH {V : Type} (l : List (Nat × V)) (h : Nat) (v : V) :
    List (Nat × V) :=
  l.map fun p => if p.1 = h then (h, v) else p

/-- The colour `LineTo` resolves: the selected pen's colour under
`R2::COPYPEN` (`objects.get(dc.pen).unwrap()` panics when absent), pure
white under `R2::WHITE`. -/
def lineColorOf (machine : DrawMachine) : Option Px :=
  match machine.dc.r2 with
  | R2.COPYPEN =>
      match lookupH machine.pens machine.dc.pen with
      | some pen => some pen.color.to_pixel
      | none => none
  | R2.WHITE => some COLORREF.white.to_pixel

/-- `LineTo(machine, hdc, x, y)` (`gdi32/draw.rs`): only a `Window` target
is implemented (`todo!` otherwise); a strictly vertical (`x = dc.x`) or
strictly horizontal (`y = dc.y`) line is painted inclusively from the
current position to the endpoint with `lineColorOf`; the current position
is updated to the endpoint; any diagonal is a fatal `todo!`.  The source
returns `false`. -/
def LineTo (machine : DrawMachine) (x y : Nat) : Option (DrawMachine × Bool) :=
  let dc := machine.dc
  match dc.target with
  | DCTarget.Window hwnd =>
      match lookupH machine.windows hwnd with
      | none => none
      | some window =>
          let stride := window.width
          match lineColorOf machine with
          | none => none
          | some color =>
              if x = dc.x then
                let p := ascending y dc.y
                match lineWrite window.pixels
                    ((natRangeIncl p.1 p.2).map fun yy => yy * stride + x)
                    color with
                | none => none
                | some pixels' =>
                    some ({ machine with
                      dc := { dc with y := y },
                      windows := updateH machine.windows hwnd
                        { window with pixels := pixels' } }, false)
              else if y = dc.y then
                let p := ascending x dc.x
                match lineWrite window.pixels
                    ((natRangeIncl p.1 p.2).map fun xx => y * stride + xx)
                    color with
                | none => none
                | some pixels' =>
                    some ({ machine with
                      dc := { dc with x := x },
                      windows := updateH machine.windows hwnd
                        { window with pixels := pixels' } }, false)
              else none
  | _ => none

theorem lineWrite_length {c : Px} :
    ∀ {idxs : List Nat} {pixels pixels' : List Px},
      lineWrite pixels idxs c = some pixels' →
      pixels'.length = pixels.length := by
  intro idxs
  induction idxs with
  | nil =>
      intro pixels pixels' h
      exact congrArg List.length (Option.some.inj h).symm
  | cons i idxs ih =>
      intro pixels pixels' h
      rw [lineWrite, List.foldlM_cons] at h
      by_cases hi : i < pixels.length
      · rw [if_pos hi] at h
        have := ih h
        rw [this, List.length_set]
      · rw [if_neg hi] at h
        exact Option.noConfusion h

theorem lineWrite_outside {c : Px} :
    ∀ {idxs : List Nat} {pixels pixels' : List Px},
      lineWrite pixels idxs c = some pixels' →
      ∀ j, j ∉ idxs → pixels'.get? j = pixels.get? j := by
  intro idxs
  induction idxs with
  | nil =>
      intro pixels pixels' h j _
      rw [(Option.some.inj h)]
  | cons i idxs ih =>
      intro pixels pixels' h j hj
      rw [lineWrite, List.foldlM_cons] at h
      by_cases hi : i < pixels.length
      · rw [if_pos hi] at h
        have hne : i ≠ j := fun he => hj (he ▸ List.mem_cons_self i idxs)
        rw [ih h j (fun hmem => hj (List.mem_cons_of_mem i hmem))]
        rw [List.get?_eq_getElem?, List.get?_eq_getElem?]
        exact List.getElem?_set_ne hne
      · rw [if_neg hi] at h
        exact Option.noConfusion h

theorem lineWrite_written {c : Px} :
    ∀ {idxs : List Nat} {pixels pixels' : List Px},
      lineWrite pixels idxs c = some pixels' →
      ∀ j, j ∈ idxs → pixels'.get? j = some c := by
  intro idxs
  induction idxs with
  | nil =>
      intro pixels pixels' h j hj
      exact absurd hj (List.not_mem_nil j)
  | cons i idxs ih =>
      intro pixels pixels' h j hj
      rw [lineWrite, List.foldlM_cons] at h
      by_cases hi : i < pixels.length
      · rw [if_pos hi] at h
        by_cases hmem : j ∈ idxs
        · exact ih h j hmem
        · have hji : j = i := by
            rcases List.mem_cons.mp hj with he | he
            · exact he
            · exact absurd he hmem
          subst hji
          rw [lineWrite_outside h j hmem]
          rw [List.get?_eq_getElem?]
          rw [List.getElem?_set_self hi]
      · rw [if_neg hi] at h
        exact Option.noConfusion h

theorem mem_natRangeIncl {a b j : Nat} :
    j ∈ natRangeIncl a b ↔ a ≤ j ∧ j ≤ b := by
  unfold natRangeIncl
  simp only [List.mem_map, List.mem_range]
  constructor
  · rintro ⟨i, hi, rfl⟩
    omega
  · rintro ⟨h1, h2⟩
    exact ⟨j - a, by omega, by omega⟩

theorem lookupH_updateH {V : Type} {l : List (Nat × V)} {h : Nat} {w : V}
    (hl : lookupH l h = some w) (v : V) :
    lookupH (updateH l h v) h = some v := by
  induction l with
  | nil => exact Option.noConfusion hl
  | cons p l ih =>
      by_cases hp : p.1 = h
      · simp [lookupH, updateH, hp]
      · have hl' : lookupH l h = some w := by
          simpa [lookupH, List.find?_cons, hp] using hl
        have hres := ih hl'
        simpa [lookupH, updateH, List.find?_cons, hp] using hres

theorem ascending_eq (a b : Nat) : ascending a b = (min a b, max a b) := by
  unfold ascending
  by_cases h : b < a
  · rw [if_pos h, Prod.mk.injEq]
    constructor <;> omega
  · rw [if_neg h, Prod.mk.injEq]
    constructor <;> omega

/-- C9.  `LineTo` succeeds only on strictly vertical or strictly horizontal
lines (a diagonal is a fatal `todo!`); under `R2::WHITE` the colour is
`(255,255,255,255)` regardless of pen and under `R2::COPYPEN` it is the
selected pen's colour; every pixel from the current position to the
endpoint inclusive receives that colour while all other window pixels are
unchanged; and afterwards the DC's current position equals the endpoint. -/
theorem C9_lineto_axis_aligned {machine : DrawMachine} {x y : Nat}
    {hwnd : Nat} {window : Window} {color : Px}
    {m' : DrawMachine} {ret : Bool}
    (htarget : machine.dc.target = DCTarget.Window hwnd)
    (hwin : lookupH machine.windows hwnd = some window)
    (hcolor : lineColorOf machine = some color)
    (hsucc : LineTo machine x y = some (m', ret)) :
    (machine.dc.r2 = R2.WHITE → color = ⟨255, 255, 255, 255⟩) ∧
    (∀ pen, machine.dc.r2 = R2.COPYPEN →
      lookupH machine.pens machine.dc.pen = some pen →
      color = pen.color.to_pixel) ∧
    (x = machine.dc.x ∨ y = machine.dc.y) ∧
    m'.dc.x = x ∧ m'.dc.y = y ∧
    (∃ window', lookupH m'.windows hwnd = some window' ∧
      window'.width = window.width ∧ window'.height = window.height ∧
      window'.pixels.length = window.pixels.length ∧
      (x = machine.dc.x →
        (∀ yy, min y machine.dc.y ≤ yy → yy ≤ max y machine.dc.y →
          window'.pixels.get? (yy * window.width + x) = some color) ∧
        (∀ j, (∀ yy, min y machine.dc.y ≤ yy → yy ≤ max y machine.dc.y →
            j ≠ yy * window.width + x) →
          window'.pixels.get? j = window.pixels.get? j)) ∧
      (x ≠ machine.dc.x → y = machine.dc.y →
        (∀ xx, min x machine.dc.x ≤ xx → xx ≤ max x machine.dc.x →
          window'.pixels.get? (y * window.width + xx) = some color) ∧
        (∀ j, (∀ xx, min x machine.dc.x ≤ xx → xx ≤ max x machine.dc.x →
            j ≠ y * window.width + xx) →
          window'.pixels.get? j = window.pixels.get? j))) := by
  have hwhite : machine.dc.r2 = R2.WHITE → color = ⟨255, 255, 255, 255⟩ := by
    intro hr2
    unfold lineColorOf at hcolor
    rw [hr2] at hcolor
    simp only at hcolor
    have := Option.some.inj hcolor
    rw [← this]
    rfl
  have hcopy : ∀ pen, machine.dc.r2 = R2.COPYPEN →
      lookupH machine.pens machine.dc.pen = some pen →
      color = pen.color.to_pixel := by
    intro pen hr2 hpen
    unfold lineColorOf at hcolor
    rw [hr2] at hcolor
    simp only at hcolor
    rw [hpen] at hcolor
    exact (Option.some.inj hcolor).symm
  unfold LineTo at hsucc
  simp only at hsucc
  rw [htarget] at hsucc
  simp only at hsucc
  rw [hwin] at hsucc
  simp only at hsucc
  rw [hcolor] at hsucc
  simp only at hsucc
  by_cases hx : x = machine.dc.x
  · rw [if_pos hx, ascending_eq] at hsucc
    rcases hlw : lineWrite window.pixels
        ((natRangeIncl (min y machine.dc.y) (max y machine.dc.y)).map
          fun yy => yy * window.width + x) color with _ | pixels' <;>
      rw [hlw] at hsucc
    · exact Option.noConfusion hsucc
    simp only at hsucc
    obtain ⟨hm, hret⟩ := Prod.mk.inj (Option.some.inj hsucc)
    subst hm
    refine ⟨hwhite, hcopy, Or.inl hx, hx.symm ▸ rfl, rfl,
      ⟨{ window with pixels := pixels' }, lookupH_updateH hwin _, rfl, rfl,
        lineWrite_length hlw, ?_, ?_⟩⟩
    · intro _
      constructor
      · intro yy h1 h2
        refine lineWrite_written hlw _ (List.mem_map.mpr ?_)
        exact ⟨yy, mem_natRangeIncl.mpr ⟨h1, h2⟩, rfl⟩
      · intro j hj
        refine lineWrite_outside hlw j ?_
        intro hmem
        obtain ⟨yy, hyy, hidx⟩ := List.mem_map.mp hmem
        rw [mem_natRangeIncl] at hyy
        exact hj yy hyy.1 hyy.2 hidx.symm
    · intro hxne _
      exact absurd hx.symm (Ne.symm hxne)
  · rw [if_neg hx] at hsucc
    by_cases hy : y = machine.dc.y
    · rw [if_pos hy, ascending_eq] at hsucc
      rcases hlw : lineWrite window.pixels
          ((natRangeIncl (min x machine.dc.x) (max x machine.dc.x)).map
            fun xx => y * window.width + xx) color with _ | pixels' <;>
        rw [hlw] at hsucc
      · exact Option.noConfusion hsucc
      simp only at hsucc
      obtain ⟨hm, hret⟩ := Prod.mk.inj (Option.some.inj hsucc)
      subst hm
      refine ⟨hwhite, hcopy, Or.inr hy, rfl, hy.symm ▸ rfl,
        ⟨{ window with pixels := pixels' }, lookupH_updateH hwin _, rfl, rfl,
          lineWrite_length hlw, ?_, ?_⟩⟩
      · intro hxeq
        exact absurd hxeq hx
      · intro _ _
        constructor
        · intro xx h1 h2
          refine lineWrite_written hlw _ (List.mem_map.mpr ?_)
          exact ⟨xx, mem_natRangeIncl.mpr ⟨h1, h2⟩, rfl⟩
        · intro j hj
          refine lineWrite_outside hlw j ?_
          intro hmem
          obtain ⟨xx, hxx, hidx⟩ := List.mem_map.mp hmem
          rw [mem_natRangeIncl] at hxx
          exact hj xx hxx.1 hxx.2 hidx.symm
    · rw [if_neg hy] at hsucc
      exact Option.noConfusion hsucc

/-- The E5 machine: pen colour `(255,0,0)`, DC at `(5,5)` on a 6×12
window. -/
def lineToExampleMachine : DrawMachine :=
  ⟨⟨5, 5, 1, R2.COPYPEN, DCTarget.Window 1⟩,
   [(1, ⟨6, 12, List.replicate 72 ⟨0, 0, 0, 0⟩⟩)],
   [(1, ⟨COLORREF.from_rgb 255 0 0⟩)]⟩

/-- The machine after `LineTo(dc, 5, 10)` on `lineToExampleMachine`:
position `(5,10)`, pixels `(5, y)` for `y ∈ [5..10]` set to
`(255,0,0,255)`. -/
def lineToExampleResult : DrawMachine :=
  ⟨⟨5, 10, 1, R2.COPYPEN, DCTarget.Window 1⟩,
   [(1, ⟨6, 12,
     ((((((List.replicate 72 (⟨0, 0, 0, 0⟩ : Px)).set 35 ⟨255, 0, 0, 255⟩).set
       41 ⟨255, 0, 0, 255⟩).set 47 ⟨255, 0, 0, 255⟩).set 53 ⟨255, 0, 0, 255⟩).set
       59 ⟨255, 0, 0, 255⟩).set 65 ⟨255, 0, 0, 255⟩⟩)],
   [(1, ⟨COLORREF.from_rgb 255 0 0⟩)]⟩

/-- Witness for C9: the E5 scenario. -/
theorem C9_lineto_axis_aligned_witness :
    (lineToExampleMachine.dc.r2 = R2.WHITE →
      (⟨255, 0, 0, 255⟩ : Px) = ⟨255, 255, 255, 255⟩) ∧
    (∀ pen, lineToExampleMachine.dc.r2 = R2.COPYPEN →
      lookupH lineToExampleMachine.pens lineToExampleMachine.dc.pen = some pen →
      (⟨255, 0, 0, 255⟩ : Px) = pen.color.to_pixel) ∧
    ((5 : Nat) = lineToExampleMachine.dc.x ∨
      (10 : Nat) = lineToExampleMachine.dc.y) ∧
    lineToExampleResult.dc.x = 5 ∧ lineToExampleResult.dc.y = 10 ∧
    (∃ window', lookupH lineToExampleResult.windows 1 = some window' ∧
      window'.width = 6 ∧ window'.height = 12 ∧
      window'.pixels.length = (List.replicate 72 (⟨0, 0, 0, 0⟩ : Px)).length ∧
      ((5 : Nat) = lineToExampleMachine.dc.x →
        (∀ yy, min 10 lineToExampleMachine.dc.y ≤ yy →
          yy ≤ max 10 lineToExampleMachine.dc.y →
          window'.pixels.get? (yy * 6 + 5) = some ⟨255, 0, 0, 255⟩) ∧
        (∀ j, (∀ yy, min 10 lineToExampleMachine.dc.y ≤ yy →
            yy ≤ max 10 lineToExampleMachine.dc.y → j ≠ yy * 6 + 5) →
          window'.pixels.get? j =
            (List.replicate 72 (⟨0, 0, 0, 0⟩ : Px)).get? j)) ∧
      ((5 : Nat) ≠ lineToExampleMachine.dc.x →
        (10 : Nat) = lineToExampleMachine.dc.y →
        (∀ xx, min 5 lineToExampleMachine.dc.x ≤ xx →
          xx ≤ max 5 lineToExampleMachine.dc.x →
          window'.pixels.get? (10 * 6 + xx) = some ⟨255, 0, 0, 255⟩) ∧
        (∀ j, (∀ xx, min 5 lineToExampleMachine.dc.x ≤ xx →
            xx ≤ max 5 lineToExampleMachine.dc.x → j ≠ 10 * 6 + xx) →
          window'.pixels.get? j =
            (List.replicate 72 (⟨0, 0, 0, 0⟩ : Px)).get? j))) :=
  @C9_lineto_axis_aligned lineToExampleMachine 5 10 1
    ⟨6, 12, List.replicate 72 ⟨0, 0, 0, 0⟩⟩ ⟨255, 0, 0, 255⟩
    lineToExampleResult false
    rfl (by decide) (by decide) (by decide)

/-! ## Heaps and `HeapReAlloc` (`kernel32/memory.rs`, claim C5) -/

/-- Modelled from the spec: a per-heap sub-allocator carved from one
mapping's range (its implementation lies outside the given sources).
§4.3: `alloc(mem, n)` returns a 4-byte-aligned address inside the heap
range or 0 on failure, `free(mem, addr)` releases a block, and
`size(mem, addr)` returns the exact byte capacity originally granted;
the algorithm is unspecified (freelist or bump is acceptable).  A bump
pointer plus a block table realises the contract; the block metadata is
kept here rather than in guest bytes, which no stated claim reads
through. -/
structure Heap where
  base : Nat
  limit : Nat
  next : Nat
  blocks : List (Nat × Nat)
deriving Repr, DecidableEq

/-- Modelled from the spec: `Heap::alloc(mem, n)` (§4.3) — the next
4-byte-aligned address when the block fits below `limit`, else 0. -/
def Heap.alloc (h : Heap) (n : Nat) : Nat × Heap :=
  let addr := (h.next + 3) / 4 * 4
  if addr + n ≤ h.limit then
    (addr, { h with next := addr + n, blocks := (addr, n) :: h.blocks })
  else (0, h)

/-- Modelled from the spec: `Heap::size(mem, addr)` (§4.3) — the exact
byte capacity originally granted, 0 for an unknown address. -/
def Heap.size (h : Heap) (addr : Nat) : Nat :=
  (lookupH h.blocks addr).getD 0

/-- The write fold of `slice::copy_within`: for `i < len`, position
`d + i` receives the ORIGINAL byte at `s + i` (`memmove` semantics). -/
def copyFold (mem : List Nat) (s d len : Nat) : List Nat :=
  (List.range len).foldl (fun acc i => acc.set (d + i) (mem.getD (s + i) 0)) mem

/-- Rust `slice::copy_within(srcStart..srcEnd, dstStart)`; `none` models
the panics on an ill-formed range or an out-of-bounds end. -/
def copy_within (mem : List Nat) (srcStart srcEnd dstStart : Nat) :
    Option (List Nat) :=
  if srcStart ≤ srcEnd ∧ srcEnd ≤ mem.length ∧
      dstStart + (srcEnd - srcStart) ≤ mem.length then
    some (copyFold mem srcStart dstStart (srcEnd - srcStart))
  else none

/-- The slice of the machine `HeapReAlloc` touches: the heap registry
and the flat guest memory, one byte per element. -/
structure HeapMachine where
  heaps : List (Nat × Heap)
  mem : List Nat
deriving Repr, DecidableEq

/-- `HeapReAlloc(machine, hHeap, dwFlags, lpMem, dwBytes)`
(`kernel32/memory.rs`): nonzero flags only warn; a missing heap logs and
returns 0; otherwise read the old block's size, allocate a new block,
copy `old_size` bytes from `lpMem` to the new address (the old block is
not freed) and return the new address.  `none` models the byte copy's
slice panics. -/
def HeapReAlloc (machine : HeapMachine) (hHeap dwFlags lpMem dwBytes : Nat) :
    Option (HeapMachine × Nat) :=
  match lookupH machine.heaps hHeap with
  | none => some (machine, 0)
  | some heap =>
      let old_size := heap.size lpMem
      let r := heap.alloc dwBytes
      let new_addr := r.1
      match copy_within machine.mem lpMem (wrap32 (lpMem + old_size)) new_addr with
      | none => none
      | some mem' =>
          some ({ heaps := updateH machine.heaps hHeap r.2, mem := mem' }, new_addr)

theorem copyFold_spec (mem : List Nat) (s d : Nat) :
    ∀ len, d + len ≤ mem.length →
      (copyFold mem s d len).length = mem.length ∧
      (∀ i, i < len → (copyFold mem s d len)[d + i]? = some (mem.getD (s + i) 0)) ∧
      (∀ j, j < d ∨ d + len ≤ j → (copyFold mem s d len)[j]? = mem[j]?) := by
  intro len
  induction len with
  | zero =>
      intro _
      refine ⟨by simp [copyFold], fun i hi => absurd hi (Nat.not_lt_zero i),
        fun j _ => by simp [copyFold]⟩
  | succ n ih =>
      intro hd
      have hd' : d + n ≤ mem.length := by omega
      obtain ⟨ihlen, ihin, ihout⟩ := ih hd'
      have hstep : copyFold mem s d (n + 1) =
          (copyFold mem s d n).set (d + n) (mem.getD (s + n) 0) := by
        rw [copyFold, copyFold, List.range_succ, List.foldl_append]
        rfl
      refine ⟨?_, ?_, ?_⟩
      · rw [hstep, List.length_set, ihlen]
      · intro i hi
        rcases Nat.lt_succ_iff_lt_or_eq.mp hi with hlt | heq
        · rw [hstep, List.getElem?_set_ne (by omega), ihin i hlt]
        · subst heq
          rw [hstep, List.getElem?_set_self (by rw [ihlen]; omega)]
      · intro j hj
        rw [hstep, List.getElem?_set_ne (by omega), ihout j (by omega)]

theorem copy_within_spec (mem : List Nat) (s e d : Nat) (mem' : List Nat)
    (h : copy_within mem s e d = some mem') :
    s ≤ e ∧ e ≤ mem.length ∧ d + (e - s) ≤ mem.length ∧
    mem'.length = mem.length ∧
    (∀ i, i < e - s → mem'[d + i]? = mem[s + i]?) ∧
    (∀ j, j < d ∨ d + (e - s) ≤ j → mem'[j]? = mem[j]?) := by
  unfold copy_within at h
  split_ifs at h with hc
  · obtain ⟨h1, h2, h3⟩ := hc
    obtain ⟨hlen, hin, hout⟩ := copyFold_spec mem s d (e - s) h3
    injection h with h
    subst h
    refine ⟨h1, h2, h3, hlen, ?_, hout⟩
    intro i hi
    have hsi : s + i < mem.length := by omega
    rw [hin i hi, List.getElem?_eq_getElem hsi, List.getD_eq_getElem]

set_option maxRecDepth 10000 in
/-- C5, counterexample: with an existing heap holding one block of
8 bytes at address 100 and a bump pointer at 108, `HeapReAlloc` of that
block to 4 bytes returns the new address 108 — but the guest byte at
offset `min(old_size, dwBytes) = 4` from the new address has been
overwritten — it now holds the old block's byte 104, no longer its prior
value 112: more than `min(old_size, dwBytes)` bytes were copied,
namely all `old_size = 8`. -/
theorem C5_counterexample :
    (HeapReAlloc ⟨[(1, ⟨100, 200, 108, [(100, 8)]⟩)], List.range 200⟩
        1 0 100 4).map (fun r => (r.2, r.1.mem[108 + min 8 4]?)) =
      some (108, some 104) ∧
    (List.range 200)[108 + min 8 4]? = some 112 := by decide

/-- C5 (amended): for every `HeapReAlloc` on an existing heap when the
copy succeeds: the address of the freshly allocated block is returned;
exactly `old_size` bytes — not `min(old_size, dwBytes)` — are copied
from the old block to the new address with `memmove` semantics; every
other guest byte is unchanged; and the old block is not freed: every
block of the heap, the reallocated one included, is still in the block
table of the updated heap. -/
theorem C5_heaprealloc_copies_old_size
    (machine : HeapMachine) (hHeap dwFlags lpMem dwBytes : Nat)
    (heap : Heap) (m' : HeapMachine) (ret : Nat)
    (hheap : lookupH machine.heaps hHeap = some heap)
    (hrun : HeapReAlloc machine hHeap dwFlags lpMem dwBytes = some (m', ret))
    (hfit : lpMem + heap.size lpMem < U32MOD) :
    ret = (heap.alloc dwBytes).1 ∧
    m'.mem.length = machine.mem.length ∧
    (∀ i, i < heap.size lpMem →
      m'.mem[ret + i]? = machine.mem[lpMem + i]?) ∧
    (∀ j, j < ret ∨ ret + heap.size lpMem ≤ j →
      m'.mem[j]? = machine.mem[j]?) ∧
    lookupH m'.heaps hHeap = some (heap.alloc dwBytes).2 ∧
    (∀ b, b ∈ heap.blocks → b ∈ (heap.alloc dwBytes).2.blocks) := by
  unfold HeapReAlloc at hrun
  rw [hheap] at hrun
  simp only at hrun
  rcases hcw : copy_within machine.mem lpMem (wrap32 (lpMem + heap.size lpMem))
      (heap.alloc dwBytes).1 with _ | mem'
  · rw [hcw] at hrun
    exact Option.noConfusion hrun
  · rw [hcw] at hrun
    simp only at hrun
    obtain ⟨hm, hret⟩ := Prod.mk.inj (Option.some.inj hrun)
    subst hret
    obtain ⟨h1, h2, h3, hlen, hin, hout⟩ := copy_within_spec _ _ _ _ _ hcw
    rw [wrap32_eq_of_lt hfit, Nat.add_sub_cancel_left] at hin hout
    refine ⟨rfl, ?_, ?_, ?_, ?_, ?_⟩
    · rw [← hm]
      exact hlen
    · intro i hi
      rw [← hm]
      exact hin i hi
    · intro j hj
      rw [← hm]
      exact hout j hj
    · rw [← hm]
      exact lookupH_updateH hheap _
    · intro b hb
      unfold Heap.alloc
      dsimp only
      split_ifs
      · exact List.mem_cons_of_mem _ hb
      · exact hb

/-- The C5 heap machine: one heap (handle 1) over `[100, 200)` with one
8-byte block at 100 and bump pointer 108; guest byte `i` holds `i`. -/
def c5Machine : HeapMachine :=
  ⟨[(1, ⟨100, 200, 108, [(100, 8)]⟩)], List.range 200⟩

/-- `c5Machine` after `HeapReAlloc(1, 0, 100, 4)`: a 4-byte block at 108,
guest bytes 108–115 now copies of bytes 100–107. -/
def c5Result : HeapMachine :=
  ⟨[(1, ⟨100, 200, 112, [(108, 4), (100, 8)]⟩)],
   ((((((((List.range 200).set 108 100).set 109 101).set 110 102).set
     111 103).set 112 104).set 113 105).set 114 106).set 115 107⟩

set_option maxRecDepth 10000 in
/-- Witness for C5 (amended) at the concrete machine `c5Machine`. -/
theorem C5_heaprealloc_copies_old_size_witness :
    (108 : Nat) = ((⟨100, 200, 108, [(100, 8)]⟩ : Heap).alloc 4).1 ∧
    c5Result.mem.length = c5Machine.mem.length ∧
    (∀ i, i < (⟨100, 200, 108, [(100, 8)]⟩ : Heap).size 100 →
      c5Result.mem[108 + i]? = c5Machine.mem[100 + i]?) ∧
    (∀ j, j < 108 ∨ 108 + (⟨100, 200, 108, [(100, 8)]⟩ : Heap).size 100 ≤ j →
      c5Result.mem[j]? = c5Machine.mem[j]?) ∧
    lookupH c5Result.heaps 1 =
      some ((⟨100, 200, 108, [(100, 8)]⟩ : Heap).alloc 4).2 ∧
    (∀ b, b ∈ (⟨100, 200, 108, [(100, 8)]⟩ : Heap).blocks →
      b ∈ ((⟨100, 200, 108, [(100, 8)]⟩ : Heap).alloc 4).2.blocks) :=
  C5_heaprealloc_copies_old_size c5Machine 1 0 100 4
    ⟨100, 200, 108, [(100, 8)]⟩ c5Result 108 (by decide) (by decide) (by decide)

/-! ## The PE loader (`windows.rs`, claim C8) -/

/-- The optional-header fields `load_exe` reads. -/
structure OptHeader where
  ImageBase : Nat
  SizeOfImage : Nat
  SizeOfStackReserve : Nat
  AddressOfEntryPoint : Nat
deriving Repr, DecidableEq

/-- One PE section as `load_exe` consumes it: raw-data location and
size, virtual placement, and its characteristics — `flagsOk` models the
`sec.characteristics()?` parse, `flagsCODE` and `flagsINITIALIZED_DATA`
the two bits the loader tests, `flags` the raw value stored in the
mapping. -/
structure PESection where
  name : String
  PointerToRawData : Nat
  VirtualAddress : Nat
  SizeOfRawData : Nat
  VirtualSize : Nat
  flagsOk : Bool
  flagsCODE : Bool
  flagsINITIALIZED_DATA : Bool
  flags : Nat
deriving Repr, DecidableEq

/-- The slice of the parsed PE (`pe::parse` output, the parser itself
being outside the given sources) that `load_exe` uses. -/
structure PEFile where
  opt_header : OptHeader
  SizeOfOptionalHeader : Nat
  sections : List PESection
deriving Repr, DecidableEq

/-- The CPU registers `load_exe` initialises. -/
structure Regs where
  eip : Nat
  esp : Nat
  ebp : Nat
  fs_addr : Nat
deriving Repr, DecidableEq

/-- What `load_exe` leaves behind of the tracked machine state: the
mapping table, the guest-memory length, the registers, the TEB address
and the stack mapping. -/
structure LoadResult where
  mappings : List Mapping
  memLen : Nat
  regs : Regs
  teb : Nat
  stack : Mapping
deriving Repr, DecidableEq

/-- `ImageSectionFlags::MEM_READ`. -/
def MEM_READ : Nat := 0x40000000

/-- One iteration of `load_exe`'s section loop: copy the raw data when
the section is CODE or INITIALIZED_DATA (the slice copy's panics are
`none`, as is a characteristics parse failure), then insert the section
mapping.  `windows.rs` predates `add`'s `truncate_previous` parameter:
contiguous layouts (previous end equal to the next start) trip the `>=`
overlap test, where truncation is the identity, so the historical
accept-contiguous behaviour corresponds to passing `true`. -/
def loadSection (base bufLen : Nat) (st : List Mapping × Nat) (sec : PESection) :
    Option (List Mapping × Nat) :=
  if sec.flagsOk = false then none
  else
    let src := sec.PointerToRawData
    let dst := wrap32 (base + sec.VirtualAddress)
    let data_size := sec.SizeOfRawData
    let load_data := sec.flagsCODE || sec.flagsINITIALIZED_DATA
    if load_data ∧ 0 < data_size ∧
        (st.2 < dst + data_size ∨ bufLen < src + data_size) then none
    else
      (Mappings.add st.1 ⟨dst, sec.VirtualSize, sec.name, sec.flags⟩ true).map
        fun r => (r.1, st.2)

/-- Modelled from the spec: `kernel32.init` (§4.5 step 6) — allocate the
TEB, the command line and the default 1 MiB process heap through the
mapping table; the sizes of the first two are representative and no
proved claim depends on them.  Returns the table, the memory length and
the TEB address. -/
def kernelInit (t : List Mapping) (memLen : Nat) :
    Option (List Mapping × Nat × Nat) :=
  match Mappings.alloc t 0x1000 "teb" memLen with
  | none => none
  | some (t1, memLen1, teb) =>
      match Mappings.alloc t1 0x1000 "cmdline" memLen1 with
      | none => none
      | some (t2, memLen2, _) =>
          match Mappings.alloc t2 0x100000 "heap" memLen2 with
          | none => none
          | some (t3, memLen3, _) => some (t3, memLen3, teb.addr)

/-- `load_exe(machine, buf, cmdline)` over the already-parsed PE `file`.
Guest memory is tracked by its length (`bufLen` is the file's byte
count): each byte copy is represented by its bounds check, a panic being
`none`.  The import walk only rewrites IAT entries inside the image and
records labels, neither of which the tracked state observes, and the
resource pointer goes to `user32` state; both are omitted here. -/
def loadExe (file : PEFile) (bufLen : Nat) : Option LoadResult :=
  let base := file.opt_header.ImageBase
  let image_size := min file.opt_header.SizeOfImage 10485760
  let memLen1 := wrap32 (base + image_size)
  match Mappings.add Mappings.new ⟨base, 0x1000, "PE header", MEM_READ⟩ true with
  | none => none
  | some (t1, _) =>
      if memLen1 < base + 0x1000 ∨ bufLen < 0x1000 then none
      else
        match file.sections.foldlM (loadSection base bufLen) (t1, memLen1) with
        | none => none
        | some (t2, memLen2) =>
            match kernelInit t2 memLen2 with
            | none => none
            | some (t3, memLen3, teb) =>
                let stack_size :=
                  if 1048576 < file.opt_header.SizeOfStackReserve then 32768
                  else file.opt_header.SizeOfStackReserve
                match Mappings.alloc t3 stack_size "stack" memLen3 with
                | none => none
                | some (t4, memLen4, stack) =>
                    let stack_end := sub32 (wrap32 (stack.addr + stack.size)) 4
                    let eip := wrap32 (base + file.opt_header.AddressOfEntryPoint)
                    some ⟨t4, memLen4, ⟨eip, stack_end, stack_end, teb⟩, teb, stack⟩

theorem Mappings.alloc_ret_size {t : List Mapping} {size0 : Nat} {desc : String}
    {memLen : Nat} {t' : List Mapping} {memLen' : Nat} {m : Mapping}
    (h : Mappings.alloc t size0 desc memLen = some (t', memLen', m)) :
    m.size = round_up_to_page_granularity size0 := by
  unfold Mappings.alloc at h
  simp only at h
  split_ifs at h
  all_goals
    obtain ⟨-, h2⟩ := Prod.mk.inj (Option.some.inj h)
    obtain ⟨-, h3⟩ := Prod.mk.inj h2
    rw [← h3]

set_option maxRecDepth 4000 in
/-- C8: after `load_exe` succeeds on a PE whose stack mapping spans at
least one word inside the 32-bit space, (a) if `SizeOfStackReserve`
exceeds 1 MiB the allocated stack mapping's size is 32 KiB instead, (b)
ESP and EBP both hold `stack.addr + stack.size - 4` (the last aligned
word of the stack mapping), and (c) EIP holds
`ImageBase + AddressOfEntryPoint` (mod 2^32). -/
theorem C8_load_exe_stack_regs
    (file : PEFile) (bufLen : Nat) (res : LoadResult)
    (hrun : loadExe file bufLen = some res)
    (hbd : res.stack.addr + res.stack.size < U32MOD)
    (h4 : 4 ≤ res.stack.addr + res.stack.size) :
    (1048576 < file.opt_header.SizeOfStackReserve → res.stack.size = 32768) ∧
    res.regs.esp = res.stack.addr + res.stack.size - 4 ∧
    res.regs.ebp = res.stack.addr + res.stack.size - 4 ∧
    res.regs.eip =
      wrap32 (file.opt_header.ImageBase + file.opt_header.AddressOfEntryPoint) := by
  unfold loadExe at hrun
  dsimp only at hrun
  split at hrun
  · exact Option.noConfusion hrun
  rename_i p1 hadd
  split at hrun
  · exact Option.noConfusion hrun
  split at hrun
  · exact Option.noConfusion hrun
  rename_i t2m hfold
  split at hrun
  · exact Option.noConfusion hrun
  rename_i t3 memLen3 teb hinit
  split at hrun
  · exact Option.noConfusion hrun
  rename_i t4 memLen4 stack halloc
  injection hrun with hres
  subst hres
  refine ⟨?_, ?_, ?_, rfl⟩
  · intro hgt
    show stack.size = 32768
    rw [Mappings.alloc_ret_size halloc, if_pos hgt]
    decide
  · show sub32 (wrap32 (stack.addr + stack.size)) 4 = stack.addr + stack.size - 4
    rw [wrap32_eq_of_lt hbd, sub32_eq_sub h4 hbd]
  · show sub32 (wrap32 (stack.addr + stack.size)) 4 = stack.addr + stack.size - 4
    rw [wrap32_eq_of_lt hbd, sub32_eq_sub h4 hbd]

/-- The C8 PE: base `0x400000`, a 0x3000-byte image, one `.text` section
at RVA 0x1000, entry point RVA 0x1100 and a 2 MiB stack reserve. -/
def c8File : PEFile :=
  ⟨⟨0x400000, 0x3000, 0x200000, 0x1100⟩, 0xE0,
   [⟨".text", 0x400, 0x1000, 0x200, 0x300, true, true, false, 0x60000020⟩]⟩

/-- The machine state `load_exe` produces for `c8File` from a
0x1000-byte file image: TEB at 0x1000, command line at 0x2000, default
heap at 0x3000, the clamped 32 KiB stack at 0x103000, ESP = EBP =
0x10AFFC and EIP = 0x401100. -/
def c8Result : LoadResult :=
  ⟨[⟨0, 0x1000, "avoid null pointers", 0⟩, ⟨0x1000, 0x1000, "teb", 0⟩,
    ⟨0x2000, 0x1000, "cmdline", 0⟩, ⟨0x3000, 0x100000, "heap", 0⟩,
    ⟨0x103000, 0x8000, "stack", 0⟩, ⟨0x400000, 0x1000, "PE header", 0x40000000⟩,
    ⟨0x401000, 0x1000, ".text", 0x60000020⟩],
   0x403000, ⟨0x401100, 0x10AFFC, 0x10AFFC, 0x1000⟩, 0x1000,
   ⟨0x103000, 0x8000, "stack", 0⟩⟩

/-- Witness for C8 at the concrete PE `c8File`. -/
theorem C8_load_exe_stack_regs_witness :
    (1048576 < c8File.opt_header.SizeOfStackReserve →
      c8Result.stack.size = 32768) ∧
    c8Result.regs.esp = c8Result.stack.addr + c8Result.stack.size - 4 ∧
    c8Result.regs.ebp = c8Result.stack.addr + c8Result.stack.size - 4 ∧
    c8Result.regs.eip =
      wrap32 (c8File.opt_header.ImageBase + c8File.opt_header.AddressOfEntryPoint) :=
  C8_load_exe_stack_regs c8File 0x1000 c8Result (by decide) (by decide) (by decide)

end Retrowin32
